import Mathlib

/-!
# Matchers `List` and `Max` of package `match`

A shallow embedding of `match/list.go` and `match/max.go`.

* A Go `string` is a sequence of bytes; it is modelled by `GoString`, a list of
  naturals, each meant to be below 256.
* A Go `int` is modelled by `Int`, on a 64-bit platform. The counters and offsets of the
  loops never overflow because they are bounded by the length of the text, itself an
  `int`; the one sum that can overflow, `self.Limit+1` in `Max.Index`, is wrapped around
  by `wrapInt`.
* A `rune` produced by `for i, r := range s` is never negative; runes are modelled by
  naturals.
* `[]int` is modelled by `List Int`, the `nil` slice by the empty list.
* `make([]int, 0, c)` panics when `c` is negative or takes more than `maxAlloc` bytes; a
  panic is modelled by `none`. Running out of memory below that bound depends on the
  machine and is not modelled.

The functions of the Go standard library that the two files call
(`utf8.DecodeRuneInString` behind `range`, `utf8.RuneLen`, `strings.Index`,
`strings.IndexRune`) are embedded from their Go sources.

The matchers `Any`, `Min`, `Contains` and `EveryOf`, which the fusion rules of the
compiler produce and whose sources are not at hand, are modelled from the table of
primitives of the specification; their definitions say so.
-/

/-- A Go string: a sequence of bytes. -/
abbrev GoString := List Nat

/-- Constant `utf8.RuneError`: the replacement character U+FFFD. -/
def RuneError : Nat := 0xFFFD

/-- Function `utf8.DecodeRuneInString`: the first rune of `s` and its width in bytes.
The empty string gives `(RuneError, 0)`, an ill-formed encoding gives `(RuneError, 1)`.
The tables `first` and `acceptRanges` of the Go source are written out as comparisons:
a lead byte fixes the size `sz` and the range `lo..hi` accepted for the second byte.
Masks and shifts are written as remainders and products: `rune(s0&mask2)<<6 |
rune(s1&maskx)` is `(s0 % 32) * 64 + s1 % 64`. -/
def decodeRune : GoString → Nat × Nat
  | [] => (RuneError, 0)
  | s0 :: t =>
    if s0 < 0x80 then (s0, 1)
    else if s0 < 0xC2 ∨ 0xF4 < s0 then (RuneError, 1)
    else
      let sz := if s0 < 0xE0 then 2 else if s0 < 0xF0 then 3 else 4
      let lo := if s0 = 0xE0 then 0xA0 else if s0 = 0xF0 then 0x90 else 0x80
      let hi := if s0 = 0xED then 0x9F else if s0 = 0xF4 then 0x8F else 0xBF
      if t.length + 1 < sz then (RuneError, 1)
      else
        match t with
        | [] => (RuneError, 1)
        | s1 :: t1 =>
          if s1 < lo ∨ hi < s1 then (RuneError, 1)
          else if sz ≤ 2 then ((s0 % 32) * 64 + s1 % 64, 2)
          else
            match t1 with
            | [] => (RuneError, 1)
            | s2 :: t2 =>
              if s2 < 0x80 ∨ 0xBF < s2 then (RuneError, 1)
              else if sz ≤ 3 then ((s0 % 16) * 4096 + (s1 % 64) * 64 + s2 % 64, 3)
              else
                match t2 with
                | [] => (RuneError, 1)
                | s3 :: _ =>
                  if s3 < 0x80 ∨ 0xBF < s3 then (RuneError, 1)
                  else ((s0 % 8) * 262144 + (s1 % 64) * 4096 + (s2 % 64) * 64 + s3 % 64, 4)

/-- One iteration of `for i, r := range s`: the byte offset `off` at which the rune
starts, the rune, and the number of bytes the iteration advances by. -/
structure RuneStep where
  off : Nat
  rune : Nat
  width : Nat
deriving DecidableEq, Repr

/-- The iterations of `for i, r := range s` over the text `s` that starts at byte
offset `i` of the whole string. Every iteration consumes at least one byte, so
`fuel = s.length` iterations are always enough. -/
def rangeFrom : Nat → Nat → GoString → List RuneStep
  | 0, _, _ => []
  | fuel + 1, i, s =>
    match s with
    | [] => []
    | _ :: _ =>
      let d := decodeRune s
      ⟨i, d.1, d.2⟩ :: rangeFrom fuel (i + d.2) (s.drop d.2)

/-- The iterations of `for i, r := range s`. -/
def rangeString (s : GoString) : List RuneStep :=
  rangeFrom s.length 0 s

/-- The runes of `s`, as `range` yields them. -/
def runes (s : GoString) : List Nat :=
  (rangeString s).map RuneStep.rune

/-- Function `utf8.RuneCountInString`: the number of runes of `s`, an ill-formed byte
counting as one rune of width 1. -/
def runeCount (s : GoString) : Nat :=
  (rangeString s).length

/-- Function `utf8.ValidString`: no iteration of `range s` meets an ill-formed
encoding, which `range` reports as `RuneError` with width 1. -/
def ValidString (s : GoString) : Prop :=
  ∀ st ∈ rangeString s, ¬ (st.rune = RuneError ∧ st.width = 1)

instance (s : GoString) : Decidable (ValidString s) := by
  unfold ValidString; infer_instance

/-- Function `utf8.ValidRune`: a Unicode scalar value. -/
def ValidRune (r : Nat) : Prop :=
  r < 0xD800 ∨ (0xDFFF < r ∧ r ≤ 0x10FFFF)

instance (r : Nat) : Decidable (ValidRune r) := by
  unfold ValidRune; infer_instance

/-- Function `utf8.RuneLen`: the number of bytes of the encoding of `r`, or `-1`
when `r` is not a valid rune. The case `r < 0` of the Go source does not arise for
naturals. -/
def RuneLen (r : Nat) : Int :=
  if r ≤ 0x7F then 1
  else if r ≤ 0x7FF then 2
  else if 0xD800 ≤ r ∧ r ≤ 0xDFFF then -1
  else if r ≤ 0xFFFF then 3
  else if r ≤ 0x10FFFF then 4
  else -1

/-- Conversion `string(r)` (`utf8.EncodeRune`): the UTF-8 encoding of `r`; a rune
that is not valid is encoded as `RuneError`. Shifts and masks are written as quotients
and remainders: `t2 | byte(r>>6)` is `0xC0 + r / 64`, `tx | byte(r)&maskx` is
`0x80 + r % 64`. -/
def encodeRune (r : Nat) : GoString :=
  if r ≤ 0x7F then [r]
  else if r ≤ 0x7FF then [0xC0 + r / 64, 0x80 + r % 64]
  else if 0x10FFFF < r ∨ (0xD800 ≤ r ∧ r ≤ 0xDFFF) then [0xEF, 0xBF, 0xBD]
  else if r ≤ 0xFFFF then [0xE0 + r / 4096, 0x80 + r / 64 % 64, 0x80 + r % 64]
  else [0xF0 + r / 262144, 0x80 + r / 4096 % 64, 0x80 + r / 64 % 64, 0x80 + r % 64]

/-- The search loop of `strings.Index`: the first offset, counted from `i`, at which
`substr` starts in `s`, or `-1`. -/
def indexFrom (substr : GoString) : Nat → GoString → Int
  | i, [] => if substr.isPrefixOf [] then (i : Int) else -1
  | i, b :: t => if substr.isPrefixOf (b :: t) then (i : Int) else indexFrom substr (i + 1) t

/-- Function `strings.Index`: the byte offset of the first instance of `substr` in
`s`, or `-1` if `substr` is not present in `s`. -/
def stringsIndex (s substr : GoString) : Int :=
  indexFrom substr 0 s

/-- Function `strings.IndexByte`, from offset `i` on. -/
def indexByteFrom (c : Nat) : Nat → GoString → Int
  | _, [] => -1
  | i, b :: t => if b = c then (i : Int) else indexByteFrom c (i + 1) t

/-- The loop `for i, r := range s { if r == utf8.RuneError { return i } }` of
`strings.IndexRune`, for the rune `r` it looks for. -/
def indexRuneLoop (r : Nat) : List RuneStep → Int
  | [] => -1
  | st :: rest => if st.rune = r then (st.off : Int) else indexRuneLoop r rest

/-- Function `strings.IndexRune`: the byte offset of the first instance of the rune `r`
in `s`, or `-1`. A rune below `utf8.RuneSelf` is searched as a byte; `utf8.RuneError` is
searched by ranging over `s`, so that it also finds an ill-formed byte; any other rune is
absent when it is not valid and is otherwise searched through its encoding. -/
def stringsIndexRune (s : GoString) (r : Nat) : Int :=
  if r < 0x80 then indexByteFrom r 0 s
  else if r = RuneError then indexRuneLoop RuneError (rangeString s)
  else if ¬ ValidRune r then -1
  else stringsIndex s (encodeRune r)

/-- The Go type `[]int`; the `nil` slice is the empty list. -/
abbrev IntSlice := List Int

/-- The byte offsets at which the runes of `s` end, in the order of the runes: the
offset of each step of `range s` plus the number of bytes the step consumed. -/
def runeEnds (s : GoString) : IntSlice :=
  (rangeString s).map (fun st => ((st.off + st.width : Nat) : Int))

/-- The iterations of one `range` loop, in order. -/
abbrev RuneSteps := List RuneStep

/-- Type `match.List`: a character list and a negation flag. -/
structure MatchList where
  List : GoString
  Not : Bool
deriving DecidableEq, Repr

/-- Type `match.Max`: an upper bound on the number of runes. -/
structure MatchMax where
  Limit : Int
deriving DecidableEq, Repr

/-- Modelled from the spec: the constant `lenOne` of package `match`, whose declaration
is not among the sources; `List` has the length `Fixed(1)`. -/
def lenOne : Int := 1

/-- Method `List.Len`. -/
def MatchList.Len (_self : MatchList) : Int :=
  lenOne

/-- Method `List.Match`. -/
def MatchList.Match (self : MatchList) (s : GoString) : Bool :=
  let inList := stringsIndex self.List s != -1
  inList == !self.Not

/-- The loop of `List.Index` over the iterations of `range s`. -/
def MatchList.indexLoop (self : MatchList) : RuneSteps → Int × IntSlice
  | [] => (-1, [])
  | st :: rest =>
    if self.Not == (stringsIndexRune self.List st.rune == -1) then
      ((st.off : Int), [RuneLen st.rune])
    else
      MatchList.indexLoop self rest

/-- Method `List.Index`. -/
def MatchList.Index (self : MatchList) (s : GoString) : Int × IntSlice :=
  self.indexLoop (rangeString s)

/-- The loop of `Max.Match`: `l` is the counter before the iteration. -/
def MatchMax.matchLoop (self : MatchMax) : Int → RuneSteps → Bool
  | _, [] => true
  | l, _ :: rest =>
    if l + 1 > self.Limit then false
    else MatchMax.matchLoop self (l + 1) rest

/-- Method `Max.Match`. -/
def MatchMax.Match (self : MatchMax) (s : GoString) : Bool :=
  self.matchLoop 0 (rangeString s)

/-- The loop of `Max.Index`: `count` and `segments` are the values before the
iteration; the loop stops at the `break`. -/
def MatchMax.indexLoop (self : MatchMax) : Int → IntSlice → RuneSteps → IntSlice
  | _, segments, [] => segments
  | count, segments, st :: rest =>
    if count + 1 > self.Limit then segments
    else MatchMax.indexLoop self (count + 1) (segments ++ [(st.off : Int) + RuneLen st.rune]) rest

/-- Go's `int` on a 64-bit platform: the value that the arithmetic result `x` takes after
wrap-around into the range from `-2^63` to `2^63 - 1`. -/
def wrapInt (x : Int) : Int :=
  (x + 9223372036854775808) % 18446744073709551616 - 9223372036854775808

/-- Constant `maxAlloc` of the Go runtime on a 64-bit platform: the size in bytes of the
largest allocation, `1 << 48`. -/
def maxAlloc : Int := 281474976710656

/-- Function `makeslice` of the Go runtime behind `make([]int, 0, cap)`, an `int` taking
8 bytes: whether the call panics, which it does when the capacity is negative or takes
more than `maxAlloc` bytes. -/
def makeIntSlicePanics (cap : Int) : Bool :=
  decide (cap < 0) || decide (maxAlloc < 8 * cap)

/-- Method `Max.Index`. The capacity `self.Limit+1` is computed in Go's `int`, so it wraps
around at the largest `int`; the result is `none` when `make([]int, 0, self.Limit+1)`
panics. -/
def MatchMax.Index (self : MatchMax) (s : GoString) : Option (Int × IntSlice) :=
  if !self.Match s then some (-1, [])
  else if makeIntSlicePanics (wrapInt (self.Limit + 1)) then none
  else some (0, self.indexLoop 0 [0] (rangeString s))

/-- Whether the loop of `Max.Index` leaves through its `break`: the loop of
`MatchMax.indexLoop`, keeping only the way it ends. -/
def MatchMax.indexBreaks (self : MatchMax) : Int → RuneSteps → Bool
  | _, [] => false
  | count, _ :: rest =>
    if count + 1 > self.Limit then true
    else MatchMax.indexBreaks self (count + 1) rest

/-- Modelled from the spec: type `match.Any`, whose source is not among the sources: the
wildcard that is bounded by a set of separators. -/
structure MatchAny where
  Separators : GoString
deriving DecidableEq, Repr

/-- Modelled from the spec: method `Any.Match`, whose source is not among the sources:
"zero or more runes, none of which ∈ seps". -/
def MatchAny.Match (self : MatchAny) (s : GoString) : Bool :=
  decide (∀ r ∈ runes s, r ∉ runes self.Separators)

/-- Modelled from the spec: type `match.Min`, whose source is not among the sources: a
lower bound on the number of runes. -/
structure MatchMin where
  Limit : Int
deriving DecidableEq, Repr

/-- Modelled from the spec: method `Min.Match`, whose source is not among the sources:
"at least n runes". -/
def MatchMin.Match (self : MatchMin) (s : GoString) : Bool :=
  decide (self.Limit ≤ (runeCount s : Int))

/-- Modelled from the spec: type `match.Contains`, whose source is not among the sources:
a needle and a negation flag. -/
structure MatchContains where
  Needle : GoString
  Not : Bool
deriving DecidableEq, Repr

/-- Modelled from the spec: method `Contains.Match`, whose source is not among the
sources: "text contains (or, if not, does not contain) substring s anywhere". -/
def MatchContains.Match (self : MatchContains) (s : GoString) : Bool :=
  (stringsIndex s self.Needle != -1) != self.Not

/-- Modelled from the spec: type `match.EveryOf`, whose source is not among the sources:
the AND-combinator over the `Match` methods of its children. -/
structure MatchEveryOf where
  Matchers : List (GoString → Bool)

/-- Modelled from the spec: method `EveryOf.Match`, whose source is not among the sources:
"matches iff every child matcher's `match` succeeds independently on the full text". -/
def MatchEveryOf.Match (self : MatchEveryOf) (s : GoString) : Bool :=
  self.Matchers.all (fun m => m s)

/-! ## The decoder and the encoder -/

theorem encodeRune_two (s0 s1 : Nat) (h0 : 0xC2 ≤ s0) (h0b : s0 ≤ 0xDF) (h1 : 0x80 ≤ s1) (h1b : s1 ≤ 0xBF) :
    encodeRune ((s0 % 32) * 64 + s1 % 64) = [s0, s1] := by
  unfold encodeRune
  rw [if_neg (by omega), if_pos (by omega)]
  congr 1
  · omega
  · congr 1; omega

theorem encodeRune_three (s0 s1 s2 : Nat) (h0 : 0xE0 ≤ s0) (h0b : s0 ≤ 0xEF)
    (h1 : (if s0 = 0xE0 then 0xA0 else 0x80) ≤ s1) (h1b : s1 ≤ (if s0 = 0xED then 0x9F else 0xBF))
    (h2 : 0x80 ≤ s2) (h2b : s2 ≤ 0xBF) :
    encodeRune ((s0 % 16) * 4096 + (s1 % 64) * 64 + s2 % 64) = [s0, s1, s2] := by
  unfold encodeRune
  split_ifs at h1 h1b <;>
  · rw [if_neg (by omega), if_neg (by omega), if_neg (by omega), if_pos (by omega)]
    congr 1
    · omega
    · congr 1
      · omega
      · congr 1; omega

theorem encodeRune_four (s0 s1 s2 s3 : Nat) (h0 : 0xF0 ≤ s0) (h0b : s0 ≤ 0xF4)
    (h1 : (if s0 = 0xF0 then 0x90 else 0x80) ≤ s1) (h1b : s1 ≤ (if s0 = 0xF4 then 0x8F else 0xBF))
    (h2 : 0x80 ≤ s2) (h2b : s2 ≤ 0xBF) (h3 : 0x80 ≤ s3) (h3b : s3 ≤ 0xBF) :
    encodeRune ((s0 % 8) * 262144 + (s1 % 64) * 4096 + (s2 % 64) * 64 + s3 % 64) = [s0, s1, s2, s3] := by
  unfold encodeRune
  split_ifs at h1 h1b <;>
  · rw [if_neg (by omega), if_neg (by omega), if_neg (by omega), if_neg (by omega)]
    congr 1
    · omega
    · congr 1
      · omega
      · congr 1
        · omega
        · congr 1; omega

theorem decodeRune_ascii (s0 : Nat) (t : GoString) (h0 : s0 < 0x80) :
    decodeRune (s0 :: t) = (s0, 1) := by
  rw [decodeRune, if_pos h0]

theorem decodeRune_xx (s0 : Nat) (t : GoString) (h0 : ¬ s0 < 0x80) (hx : s0 < 0xC2 ∨ 0xF4 < s0) :
    decodeRune (s0 :: t) = (RuneError, 1) := by
  rw [decodeRune, if_neg h0, if_pos hx]

theorem decodeRune_lead2 (s0 : Nat) (t : GoString) (h0 : 0xC2 ≤ s0) (h0b : s0 ≤ 0xDF) :
    decodeRune (s0 :: t) = (RuneError, 1) ∨
    (∃ s1 q, t = s1 :: q ∧ 0x80 ≤ s1 ∧ s1 ≤ 0xBF ∧
      decodeRune (s0 :: t) = ((s0 % 32) * 64 + s1 % 64, 2)) := by
  have e1 : s0 < 0xE0 := by omega
  have e2 : ¬ s0 = 0xE0 := by omega
  have e3 : ¬ s0 = 0xF0 := by omega
  have e4 : ¬ s0 = 0xED := by omega
  have e5 : ¬ s0 = 0xF4 := by omega
  rw [decodeRune, if_neg (by omega), if_neg (by omega)]
  simp only [e1, e2, e3, e4, e5, if_true, if_false]
  cases t with
  | nil => left; simp
  | cons s1 q =>
    by_cases h1 : s1 < 0x80 ∨ 0xBF < s1
    · left; simp [h1]
    · right; exact ⟨s1, q, rfl, by omega, by omega, by simp [h1]⟩

theorem decodeRune_lead3 (s0 : Nat) (t : GoString) (h0 : 0xE0 ≤ s0) (h0b : s0 ≤ 0xEF) :
    decodeRune (s0 :: t) = (RuneError, 1) ∨
    (∃ s1 s2 q, t = s1 :: s2 :: q ∧ (if s0 = 0xE0 then 0xA0 else 0x80) ≤ s1 ∧
      s1 ≤ (if s0 = 0xED then 0x9F else 0xBF) ∧ 0x80 ≤ s2 ∧ s2 ≤ 0xBF ∧
      decodeRune (s0 :: t) = ((s0 % 16) * 4096 + (s1 % 64) * 64 + s2 % 64, 3)) := by
  have e1 : ¬ s0 < 0xE0 := by omega
  have e2 : s0 < 0xF0 := by omega
  have e3 : ¬ s0 = 0xF0 := by omega
  have e5 : ¬ s0 = 0xF4 := by omega
  rw [decodeRune, if_neg (by omega), if_neg (by omega)]
  simp only [e1, e2, e3, e5, if_true, if_false]
  cases t with
  | nil => left; simp
  | cons s1 t1 =>
    cases t1 with
    | nil => left; simp
    | cons s2 q =>
      by_cases h1 : s1 < (if s0 = 0xE0 then 0xA0 else 0x80) ∨ (if s0 = 0xED then 0x9F else 0xBF) < s1
      · left; simp [h1]
      · by_cases h2 : s2 < 0x80 ∨ 0xBF < s2
        · left; simp [h1, h2]
        · right; exact ⟨s1, s2, q, rfl, by omega, by omega, by omega, by omega, by simp [h1, h2]⟩

theorem decodeRune_lead4 (s0 : Nat) (t : GoString) (h0 : 0xF0 ≤ s0) (h0b : s0 ≤ 0xF4) :
    decodeRune (s0 :: t) = (RuneError, 1) ∨
    (∃ s1 s2 s3 q, t = s1 :: s2 :: s3 :: q ∧ (if s0 = 0xF0 then 0x90 else 0x80) ≤ s1 ∧
      s1 ≤ (if s0 = 0xF4 then 0x8F else 0xBF) ∧ 0x80 ≤ s2 ∧ s2 ≤ 0xBF ∧ 0x80 ≤ s3 ∧ s3 ≤ 0xBF ∧
      decodeRune (s0 :: t) =
        ((s0 % 8) * 262144 + (s1 % 64) * 4096 + (s2 % 64) * 64 + s3 % 64, 4)) := by
  have e1 : ¬ s0 < 0xE0 := by omega
  have e2 : ¬ s0 < 0xF0 := by omega
  have e3 : ¬ s0 = 0xE0 := by omega
  have e5 : ¬ s0 = 0xED := by omega
  rw [decodeRune, if_neg (by omega), if_neg (by omega)]
  simp only [e1, e2, e3, e5, if_true, if_false]
  cases t with
  | nil => left; simp
  | cons s1 t1 =>
    cases t1 with
    | nil => left; simp
    | cons s2 t2 =>
      cases t2 with
      | nil => left; simp
      | cons s3 q =>
        by_cases h1 : s1 < (if s0 = 0xF0 then 0x90 else 0x80) ∨ (if s0 = 0xF4 then 0x8F else 0xBF) < s1
        · left; simp [h1]
        · by_cases h2 : s2 < 0x80 ∨ 0xBF < s2
          · left; simp [h1, h2]
          · by_cases h3 : s3 < 0x80 ∨ 0xBF < s3
            · left; simp [h1, h2, h3]
            · right
              exact ⟨s1, s2, s3, q, rfl, by omega, by omega, by omega, by omega, by omega,
                by omega, by simp [h1, h2, h3]⟩

theorem encodeRune_length_pos (r : Nat) : 1 ≤ (encodeRune r).length := by
  unfold encodeRune
  split_ifs <;> simp

theorem RuneLen_eq_length (r : Nat) (h : ValidRune r) : RuneLen r = ((encodeRune r).length : Int) := by
  unfold ValidRune at h
  unfold RuneLen encodeRune
  split_ifs <;> first | rfl | omega

/-- The first byte of an encoding is not a continuation byte, all other bytes are. -/
theorem encodeRune_shape (r : Nat) :
    ∃ b0 rest, encodeRune r = b0 :: rest ∧ (b0 < 0x80 ∨ 0xC0 ≤ b0) ∧
      ∀ b ∈ rest, 0x80 ≤ b ∧ b ≤ 0xBF := by
  unfold encodeRune
  split_ifs with h1 h2 h3 h4
  · exact ⟨_, _, rfl, by omega, by simp⟩
  · exact ⟨_, _, rfl, by omega, by simp; omega⟩
  · exact ⟨_, _, rfl, by omega, by simp⟩
  · refine ⟨_, _, rfl, by omega, ?_⟩
    intro b hb
    simp only [List.mem_cons, List.mem_singleton, List.not_mem_nil, or_false] at hb
    rcases hb with rfl | rfl <;> omega
  · refine ⟨_, _, rfl, by omega, ?_⟩
    intro b hb
    simp only [List.mem_cons, List.mem_singleton, List.not_mem_nil, or_false] at hb
    rcases hb with rfl | rfl | rfl <;> omega

theorem decodeRune_cons (s0 : Nat) (t : GoString) :
    (s0 < 0x80 ∧ decodeRune (s0 :: t) = (s0, 1)) ∨
    (0x80 ≤ s0 ∧ decodeRune (s0 :: t) = (RuneError, 1)) ∨
    (∃ r q, 0x80 ≤ r ∧ ValidRune r ∧ s0 :: t = encodeRune r ++ q ∧
       decodeRune (s0 :: t) = (r, (encodeRune r).length)) := by
  by_cases h0 : s0 < 0x80
  · exact Or.inl ⟨h0, decodeRune_ascii s0 t h0⟩
  right
  by_cases hx : s0 < 0xC2 ∨ 0xF4 < s0
  · exact Or.inl ⟨by omega, decodeRune_xx s0 t h0 hx⟩
  by_cases c2 : s0 ≤ 0xDF
  · rcases decodeRune_lead2 s0 t (by omega) c2 with h | ⟨s1, q, rfl, h1, h1b, h⟩
    · exact Or.inl ⟨by omega, h⟩
    · right
      have he := encodeRune_two s0 s1 (by omega) c2 h1 h1b
      refine ⟨(s0 % 32) * 64 + s1 % 64, q, by omega, Or.inl (by omega), by rw [he]; rfl, ?_⟩
      rw [h, he]; rfl
  by_cases c3 : s0 ≤ 0xEF
  · rcases decodeRune_lead3 s0 t (by omega) c3 with h | ⟨s1, s2, q, rfl, h1, h1b, h2, h2b, h⟩
    · exact Or.inl ⟨by omega, h⟩
    · right
      have he := encodeRune_three s0 s1 s2 (by omega) c3 h1 h1b h2 h2b
      refine ⟨(s0 % 16) * 4096 + (s1 % 64) * 64 + s2 % 64, q, ?_, ?_, by rw [he]; rfl, ?_⟩
      · split_ifs at h1 h1b <;> omega
      · unfold ValidRune
        split_ifs at h1 h1b <;> omega
      · rw [h, he]; rfl
  · rcases decodeRune_lead4 s0 t (by omega) (by omega) with
      h | ⟨s1, s2, s3, q, rfl, h1, h1b, h2, h2b, h3, h3b, h⟩
    · exact Or.inl ⟨by omega, h⟩
    · right
      have he := encodeRune_four s0 s1 s2 s3 (by omega) (by omega) h1 h1b h2 h2b h3 h3b
      refine ⟨(s0 % 8) * 262144 + (s1 % 64) * 4096 + (s2 % 64) * 64 + s3 % 64, q, ?_, ?_,
        by rw [he]; rfl, ?_⟩
      · split_ifs at h1 h1b <;> omega
      · unfold ValidRune
        split_ifs at h1 h1b <;> omega
      · rw [h, he]; rfl

theorem rangeFrom_nil (fuel i : Nat) : rangeFrom fuel i [] = [] := by
  cases fuel <;> rfl

theorem decodeRune_width (b : Nat) (t : GoString) :
    1 ≤ (decodeRune (b :: t)).2 ∧ (decodeRune (b :: t)).2 ≤ (b :: t).length := by
  rcases decodeRune_cons b t with ⟨_, h⟩ | ⟨_, h⟩ | ⟨r, q, _, _, hs, h⟩
  · rw [h]; simp
  · rw [h]; simp
  · rw [h, hs]
    have := encodeRune_length_pos r
    simp only [List.length_append]
    omega

theorem rangeFrom_fuel (f1 : Nat) : ∀ (f2 i : Nat) (s : GoString), s.length ≤ f1 → s.length ≤ f2 →
    rangeFrom f1 i s = rangeFrom f2 i s := by
  induction f1 with
  | zero =>
    intro f2 i s h1 _
    have : s = [] := List.length_eq_zero.mp (by omega)
    subst this
    rw [rangeFrom_nil, rangeFrom_nil]
  | succ f1 ih =>
    intro f2 i s h1 h2
    cases s with
    | nil => rw [rangeFrom_nil, rangeFrom_nil]
    | cons b t =>
      cases f2 with
      | zero => simp at h2
      | succ f2 =>
        have hw := decodeRune_width b t
        simp only [rangeFrom]
        congr 1
        apply ih
        · simp only [List.length_drop, List.length_cons] at *; omega
        · simp only [List.length_drop, List.length_cons] at *; omega

theorem rangeFrom_cons (i b : Nat) (t : GoString) :
    rangeFrom (b :: t).length i (b :: t) =
      ⟨i, (decodeRune (b :: t)).1, (decodeRune (b :: t)).2⟩ ::
        rangeFrom ((b :: t).drop (decodeRune (b :: t)).2).length (i + (decodeRune (b :: t)).2)
          ((b :: t).drop (decodeRune (b :: t)).2) := by
  have hw := decodeRune_width b t
  simp only [List.length_cons, rangeFrom]
  congr 1
  apply rangeFrom_fuel
  · simp only [List.length_drop, List.length_cons] at *; omega
  · exact le_refl _

/-- The three ways in which `range` takes its next step on a non-empty text. -/
theorem rangeFrom_cases (i b : Nat) (t : GoString) :
    (b < 0x80 ∧ rangeFrom (b :: t).length i (b :: t) = ⟨i, b, 1⟩ :: rangeFrom t.length (i + 1) t) ∨
    (0x80 ≤ b ∧
      rangeFrom (b :: t).length i (b :: t) = ⟨i, RuneError, 1⟩ :: rangeFrom t.length (i + 1) t) ∨
    (∃ r q, 0x80 ≤ r ∧ ValidRune r ∧ b :: t = encodeRune r ++ q ∧
      rangeFrom (b :: t).length i (b :: t) =
        ⟨i, r, (encodeRune r).length⟩ :: rangeFrom q.length (i + (encodeRune r).length) q) := by
  rcases decodeRune_cons b t with ⟨hb, h⟩ | ⟨hb, h⟩ | ⟨r, q, hr, hv, hs, h⟩
  · left
    refine ⟨hb, ?_⟩
    rw [rangeFrom_cons, h]; rfl
  · right; left
    refine ⟨hb, ?_⟩
    rw [rangeFrom_cons, h]; rfl
  · right; right
    refine ⟨r, q, hr, hv, hs, ?_⟩
    rw [rangeFrom_cons, h]
    simp only
    rw [hs, List.drop_left]

theorem decodeRune_three (s0 s1 s2 : Nat) (t : GoString) (h0 : 0xE0 ≤ s0) (h0b : s0 ≤ 0xEF)
    (h1 : (if s0 = 0xE0 then 0xA0 else 0x80) ≤ s1) (h1b : s1 ≤ (if s0 = 0xED then 0x9F else 0xBF))
    (h2 : 0x80 ≤ s2) (h2b : s2 ≤ 0xBF) :
    decodeRune (s0 :: s1 :: s2 :: t) = ((s0 % 16) * 4096 + (s1 % 64) * 64 + s2 % 64, 3) := by
  rcases decodeRune_lead3 s0 (s1 :: s2 :: t) h0 h0b with h | ⟨a, b, q, ht, _, _, _, _, h⟩
  · exfalso
    have e1 : ¬ s0 < 0xE0 := by omega
    have e2 : s0 < 0xF0 := by omega
    have e3 : ¬ s0 = 0xF0 := by omega
    have e5 : ¬ s0 = 0xF4 := by omega
    have k1 : ¬ (s1 < (if s0 = 0xE0 then 0xA0 else 0x80) ∨ (if s0 = 0xED then 0x9F else 0xBF) < s1) := by
      omega
    have k2 : ¬ (s2 < 0x80 ∨ 0xBF < s2) := by omega
    rw [decodeRune, if_neg (by omega), if_neg (by omega)] at h
    simp only [e1, e2, e3, e5, if_true, if_false] at h
    simp [k1, k2, RuneError] at h
  · simp only [List.cons.injEq] at ht
    obtain ⟨rfl, rfl, rfl⟩ := ht
    exact h

theorem decodeRune_four (s0 s1 s2 s3 : Nat) (t : GoString) (h0 : 0xF0 ≤ s0) (h0b : s0 ≤ 0xF4)
    (h1 : (if s0 = 0xF0 then 0x90 else 0x80) ≤ s1) (h1b : s1 ≤ (if s0 = 0xF4 then 0x8F else 0xBF))
    (h2 : 0x80 ≤ s2) (h2b : s2 ≤ 0xBF) (h3 : 0x80 ≤ s3) (h3b : s3 ≤ 0xBF) :
    decodeRune (s0 :: s1 :: s2 :: s3 :: t) =
      ((s0 % 8) * 262144 + (s1 % 64) * 4096 + (s2 % 64) * 64 + s3 % 64, 4) := by
  rcases decodeRune_lead4 s0 (s1 :: s2 :: s3 :: t) h0 h0b with
    h | ⟨a, b, c, q, ht, _, _, _, _, _, _, h⟩
  · exfalso
    have e1 : ¬ s0 < 0xE0 := by omega
    have e2 : ¬ s0 < 0xF0 := by omega
    have e3 : ¬ s0 = 0xE0 := by omega
    have e5 : ¬ s0 = 0xED := by omega
    have k1 : ¬ (s1 < (if s0 = 0xF0 then 0x90 else 0x80) ∨ (if s0 = 0xF4 then 0x8F else 0xBF) < s1) := by
      omega
    have k2 : ¬ (s2 < 0x80 ∨ 0xBF < s2) := by omega
    have k3 : ¬ (s3 < 0x80 ∨ 0xBF < s3) := by omega
    rw [decodeRune, if_neg (by omega), if_neg (by omega)] at h
    simp only [e1, e2, e3, e5, if_true, if_false] at h
    simp [k1, k2, k3, RuneError] at h
  · simp only [List.cons.injEq] at ht
    obtain ⟨rfl, rfl, rfl, rfl⟩ := ht
    exact h

theorem decodeRune_two (s0 s1 : Nat) (t : GoString) (h0 : 0xC2 ≤ s0) (h0b : s0 ≤ 0xDF)
    (h1 : 0x80 ≤ s1) (h1b : s1 ≤ 0xBF) :
    decodeRune (s0 :: s1 :: t) = ((s0 % 32) * 64 + s1 % 64, 2) := by
  rcases decodeRune_lead2 s0 (s1 :: t) h0 h0b with h | ⟨a, q, ht, _, _, h⟩
  · exfalso
    have e1 : s0 < 0xE0 := by omega
    have e2 : ¬ s0 = 0xE0 := by omega
    have e3 : ¬ s0 = 0xF0 := by omega
    have e4 : ¬ s0 = 0xED := by omega
    have e5 : ¬ s0 = 0xF4 := by omega
    have k1 : ¬ (s1 < 0x80 ∨ 0xBF < s1) := by omega
    rw [decodeRune, if_neg (by omega), if_neg (by omega)] at h
    simp only [e1, e2, e3, e4, e5, if_true, if_false] at h
    simp [k1, RuneError] at h
  · simp only [List.cons.injEq] at ht
    obtain ⟨rfl, rfl⟩ := ht
    exact h

/-- Decoding undoes encoding, whatever follows the encoded rune. -/
theorem decodeRune_encodeRune_append (r : Nat) (hv : ValidRune r) (q : GoString) :
    decodeRune (encodeRune r ++ q) = (r, (encodeRune r).length) := by
  unfold ValidRune at hv
  unfold encodeRune
  split_ifs with h1 h2 h3 h4
  · exact decodeRune_ascii r q (by omega)
  · simp only [List.cons_append, List.nil_append, List.length_cons, List.length_nil]
    rw [decodeRune_two _ _ _ (by omega) (by omega) (by omega) (by omega)]
    congr 1; omega
  · omega
  · simp only [List.cons_append, List.nil_append, List.length_cons, List.length_nil]
    rw [decodeRune_three _ _ _ _ (by omega) (by omega) (by split_ifs <;> omega)
      (by split_ifs <;> omega) (by omega) (by omega)]
    congr 1; omega
  · simp only [List.cons_append, List.nil_append, List.length_cons, List.length_nil]
    rw [decodeRune_four _ _ _ _ _ (by omega) (by omega) (by split_ifs <;> omega)
      (by split_ifs <;> omega) (by omega) (by omega) (by omega) (by omega)]
    congr 1; omega

/-! ## Searching -/

/-- Function `strings.Index` finds `substr` exactly when it is a contiguous part of `s`. -/
theorem indexFrom_ne_iff (substr : GoString) : ∀ (s : GoString) (i : Nat),
    indexFrom substr i s ≠ -1 ↔ substr <:+: s := by
  intro s
  induction s with
  | nil =>
    intro i
    simp only [indexFrom]
    split_ifs with h
    · rw [List.isPrefixOf_iff_prefix] at h
      constructor
      · intro _; exact h.isInfix
      · intro _; omega
    · rw [List.isPrefixOf_iff_prefix] at h
      constructor
      · intro hc; exact absurd rfl hc
      · intro hi
        exfalso; apply h
        rw [List.infix_nil] at hi
        rw [hi]
  | cons b t ih =>
    intro i
    simp only [indexFrom]
    rw [List.infix_cons_iff]
    split_ifs with h
    · rw [List.isPrefixOf_iff_prefix] at h
      constructor
      · intro _; exact Or.inl h
      · intro _; omega
    · rw [List.isPrefixOf_iff_prefix] at h
      rw [ih (i + 1)]
      constructor
      · intro hi; exact Or.inr hi
      · rintro (hp | hi)
        · exact absurd hp h
        · exact hi

theorem stringsIndex_ne_iff (s substr : GoString) :
    stringsIndex s substr ≠ -1 ↔ substr <:+: s :=
  indexFrom_ne_iff substr s 0

theorem indexByteFrom_ne_iff (c : Nat) : ∀ (s : GoString) (i : Nat),
    indexByteFrom c i s ≠ -1 ↔ c ∈ s := by
  intro s
  induction s with
  | nil => intro i; simp [indexByteFrom]
  | cons b t ih =>
    intro i
    simp only [indexByteFrom, List.mem_cons]
    split_ifs with h
    · constructor
      · intro _; exact Or.inl h.symm
      · intro _; omega
    · rw [ih (i + 1)]
      constructor
      · intro hm; exact Or.inr hm
      · rintro (hc | hm)
        · exact absurd hc.symm h
        · exact hm

theorem indexRuneLoop_ne_iff (r : Nat) : ∀ (steps : List RuneStep),
    indexRuneLoop r steps ≠ -1 ↔ r ∈ steps.map RuneStep.rune := by
  intro steps
  induction steps with
  | nil => simp [indexRuneLoop]
  | cons st rest ih =>
    simp only [indexRuneLoop, List.map_cons, List.mem_cons]
    split_ifs with h
    · constructor
      · intro _; exact Or.inl h.symm
      · intro _; omega
    · rw [ih]
      constructor
      · intro hm; exact Or.inr hm
      · rintro (hc | hm)
        · exact absurd hc.symm h
        · exact hm

/-- An encoding cannot start inside a run of continuation bytes. -/
theorem skip_continuation (x0 : Nat) (xs q : GoString) (hx : x0 < 0x80 ∨ 0xC0 ≤ x0) :
    ∀ cs : GoString, (∀ b ∈ cs, 0x80 ≤ b ∧ b ≤ 0xBF) → x0 :: xs <:+: cs ++ q → x0 :: xs <:+: q := by
  intro cs
  induction cs with
  | nil => intro _ h; simpa using h
  | cons c cs ih =>
    intro hc h
    rw [List.cons_append, List.infix_cons_iff] at h
    rcases h with hp | hi
    · exfalso
      have h0 : x0 = c := by
        obtain ⟨u, hu⟩ := hp
        simp only [List.cons_append, List.cons.injEq] at hu
        exact hu.1
      have := hc c (List.mem_cons_self _ _)
      omega
    · exact ih (fun b hb => hc b (List.mem_cons_of_mem _ hb)) hi

/-- Self-synchronisation, first half: an encoded rune that occurs in the bytes of `s`
is one of the runes that `range s` yields. -/
theorem mem_runes_of_occurs (r : Nat) (hv : ValidRune r) : ∀ (n : Nat) (s : GoString) (i : Nat),
    s.length = n → encodeRune r <:+: s → r ∈ (rangeFrom s.length i s).map RuneStep.rune := by
  intro n
  induction n using Nat.strong_induction_on with
  | _ n ih =>
    intro s i hn hin
    cases s with
    | nil =>
      exfalso
      rw [List.infix_nil] at hin
      have := encodeRune_length_pos r
      rw [hin] at this
      simp at this
    | cons b t =>
      rw [List.infix_cons_iff] at hin
      rcases hin with ⟨q, hq⟩ | hin
      · have hd := decodeRune_encodeRune_append r hv q
        rw [hq] at hd
        rw [rangeFrom_cons, hd]
        simp
      · obtain ⟨x0, xs, hx, hx0, _⟩ := encodeRune_shape r
        rw [hx] at hin
        rcases rangeFrom_cases i b t with ⟨_, h⟩ | ⟨_, h⟩ | ⟨c, q, _, _, hs, h⟩
        · rw [h, List.map_cons, List.mem_cons]
          right
          exact ih t.length (by simp at hn; omega) t (i + 1) rfl (by rw [hx]; exact hin)
        · rw [h, List.map_cons, List.mem_cons]
          right
          exact ih t.length (by simp at hn; omega) t (i + 1) rfl (by rw [hx]; exact hin)
        · rw [h, List.map_cons, List.mem_cons]
          right
          obtain ⟨c0, cs, hc, _, hcs⟩ := encodeRune_shape c
          rw [hc, List.cons_append, List.cons.injEq] at hs
          have hin2 : x0 :: xs <:+: q := by
            apply skip_continuation x0 xs q hx0 cs hcs
            rw [← hs.2]; exact hin
          have hlen : q.length < n := by
            rw [← hn, hs.2]; simp only [List.length_cons, List.length_append]; omega
          exact ih q.length hlen q _ rfl (by rw [hx]; exact hin2)

/-- Self-synchronisation, second half: a rune that `range s` yields from a well-formed
encoding occurs encoded in the bytes of `s`. -/
theorem occurs_of_mem_runes (r : Nat) : ∀ (n : Nat) (s : GoString) (i : Nat),
    s.length = n → r ∈ (rangeFrom s.length i s).map RuneStep.rune →
    (r ≠ RuneError ∨ ∀ st ∈ rangeFrom s.length i s, ¬ (st.rune = RuneError ∧ st.width = 1)) →
    encodeRune r <:+: s := by
  intro n
  induction n using Nat.strong_induction_on with
  | _ n ih =>
    intro s i hn hm hok
    cases s with
    | nil => rw [rangeFrom_nil] at hm; simp at hm
    | cons b t =>
      rcases rangeFrom_cases i b t with ⟨hb, h⟩ | ⟨hb, h⟩ | ⟨c, q, _, _, hs, h⟩
      · rw [h, List.map_cons, List.mem_cons] at hm
        rw [h] at hok
        rcases hm with rfl | hm
        · have : encodeRune r = [r] := by
            unfold encodeRune; rw [if_pos (by simpa using (by omega : r ≤ 0x7F))]
          rw [this]
          exact ⟨[], t, by simp⟩
        · have := ih t.length (by simp at hn; omega) t (i + 1) rfl hm
            (hok.imp id (fun hall st hst => hall st (List.mem_cons_of_mem _ hst)))
          exact List.infix_cons this
      · rw [h, List.map_cons, List.mem_cons] at hm
        rw [h] at hok
        rcases hm with rfl | hm
        · exfalso
          rcases hok with hne | hall
          · exact hne rfl
          · exact hall _ (List.mem_cons_self _ _) ⟨rfl, rfl⟩
        · have := ih t.length (by simp at hn; omega) t (i + 1) rfl hm
            (hok.imp id (fun hall st hst => hall st (List.mem_cons_of_mem _ hst)))
          exact List.infix_cons this
      · rw [h, List.map_cons, List.mem_cons] at hm
        rw [h] at hok
        rcases hm with rfl | hm
        · rw [hs]
          exact (List.prefix_append _ _).isInfix
        · have hlen : q.length < n := by
            have := encodeRune_length_pos c
            rw [← hn, hs, List.length_append]; omega
          have := ih q.length hlen q _ rfl hm
            (hok.imp id (fun hall st hst => hall st (List.mem_cons_of_mem _ hst)))
          rw [hs]
          exact this.trans (List.suffix_append _ _).isInfix
/-! ## The steps of `range` -/

/-- One step of `range` on a non-empty text: the step taken, what is left, and, when the
step did not meet an ill-formed encoding, the bytes it consumed. -/
theorem rangeFrom_step (i b : Nat) (t : GoString) :
    ∃ r w q, 1 ≤ w ∧ (b :: t).length = w + q.length ∧ (b :: t).drop w = q ∧
      rangeFrom (b :: t).length i (b :: t) = ⟨i, r, w⟩ :: rangeFrom q.length (i + w) q ∧
      (¬ (r = RuneError ∧ w = 1) →
        (b :: t).take w = encodeRune r ∧ RuneLen r = (w : Int) ∧ ValidRune r) := by
  rcases rangeFrom_cases i b t with ⟨hb, h⟩ | ⟨hb, h⟩ | ⟨r, q, hr, hv, hs, h⟩
  · refine ⟨b, 1, t, le_refl _, by simp; omega, rfl, h, fun _ => ⟨?_, ?_, ?_⟩⟩
    · unfold encodeRune; rw [if_pos (by omega)]; rfl
    · unfold RuneLen; rw [if_pos (by omega)]; rfl
    · exact Or.inl (by omega)
  · exact ⟨RuneError, 1, t, le_refl _, by simp; omega, rfl, h, fun hn => absurd ⟨rfl, rfl⟩ hn⟩
  · refine ⟨r, (encodeRune r).length, q, encodeRune_length_pos r, by rw [hs]; simp, ?_, h,
      fun _ => ⟨?_, RuneLen_eq_length r hv, hv⟩⟩
    · rw [hs, List.drop_left]
    · rw [hs, List.take_left]

/-- Every rune that `range` yields is a Unicode scalar value. -/
theorem rangeFrom_validRune : ∀ (n : Nat) (s : GoString) (i : Nat), s.length = n →
    ∀ st ∈ rangeFrom s.length i s, ValidRune st.rune := by
  intro n
  induction n using Nat.strong_induction_on with
  | _ n ih =>
    intro s i hn st hst
    cases s with
    | nil => rw [rangeFrom_nil] at hst; simp at hst
    | cons b t =>
      obtain ⟨r, w, q, hw, hlen, _, h, hv⟩ := rangeFrom_step i b t
      rw [h] at hst
      rcases List.mem_cons.mp hst with rfl | hst
      · by_cases hbad : r = RuneError ∧ w = 1
        · show ValidRune r
          rw [hbad.1]; decide
        · exact (hv hbad).2.2
      · exact ih q.length (by omega) q (i + w) rfl st hst

/-- Function `strings.IndexRune` finds `r` exactly when `r` is one of the runes of `s`. -/
theorem stringsIndexRune_ne_iff (s : GoString) (r : Nat) :
    stringsIndexRune s r ≠ -1 ↔ r ∈ runes s := by
  unfold stringsIndexRune
  split_ifs with h h2 h3
  · rw [indexByteFrom_ne_iff]
    have he : encodeRune r = [r] := by
      unfold encodeRune; rw [if_pos (by omega)]
    have hv : ValidRune r := Or.inl (by omega)
    constructor
    · intro hm
      obtain ⟨u, v, huv⟩ := List.append_of_mem hm
      apply mem_runes_of_occurs r hv s.length s 0 rfl
      rw [he]
      exact ⟨u, v, by rw [huv]; simp⟩
    · intro hm
      have hin := occurs_of_mem_runes r s.length s 0 rfl hm
        (Or.inl (by unfold RuneError; omega))
      rw [he] at hin
      exact hin.subset (List.mem_singleton_self r)
  · rw [h2]
    exact indexRuneLoop_ne_iff RuneError (rangeString s)
  · rw [stringsIndex_ne_iff]
    constructor
    · exact mem_runes_of_occurs r h3 s.length s 0 rfl
    · intro hm
      exact occurs_of_mem_runes r s.length s 0 rfl hm (Or.inl h2)
  · constructor
    · intro hc; exact absurd rfl hc
    · intro hm
      exfalso
      unfold runes at hm
      obtain ⟨st, hst, rfl⟩ := List.mem_map.mp hm
      exact h3 (rangeFrom_validRune s.length s 0 rfl st hst)

/-! ## `List.Match` -/

/-- Claim C1 fails as stated, in two ways. The list `"\xff"` is not well-formed, so the
replacement character U+FFFD is among the runes that `range` and `strings.IndexRune` find
in it, yet `List.Match` on the text of U+FFFD searches for its encoding and returns false.
The surrogate `0xD800` is not a Unicode scalar value, so the text of it is the text of
U+FFFD, which `List.Match` finds in the list that holds U+FFFD, yet `0xD800` does not
occur in that list. -/
theorem list_match_single_rune_counterexample :
    ¬ ((MatchList.mk [0xFF] false).Match (encodeRune 0xFFFD) = true ↔
        Xor' ((0xFFFD : Nat) ∈ runes [0xFF]) (false = true)) ∧
    ¬ ((MatchList.mk [0xEF, 0xBF, 0xBD] false).Match (encodeRune 0xD800) = true ↔
        Xor' ((0xD800 : Nat) ∈ runes [0xEF, 0xBF, 0xBD]) (false = true)) := by
  decide

/-- Claim C1, amended. For every character set `S`, flag `not` and rune `r` that is a
Unicode scalar value, where `S` is well-formed UTF-8 or `r` is not the replacement
character U+FFFD, `List.Match` applied to the text that consists of exactly the rune `r`
returns true if and only if (`r` occurs in `S`) XOR `not`. -/
theorem list_match_single_rune (S : GoString) (not : Bool) (r : Nat) (hr : ValidRune r)
    (hS : r ≠ RuneError ∨ ValidString S) :
    (MatchList.mk S not).Match (encodeRune r) = true ↔ Xor' (r ∈ runes S) (not = true) := by
  have key : stringsIndex S (encodeRune r) ≠ -1 ↔ r ∈ runes S := by
    rw [stringsIndex_ne_iff]
    constructor
    · exact mem_runes_of_occurs r hr S.length S 0 rfl
    · intro hm
      exact occurs_of_mem_runes r S.length S 0 rfl hm hS
  unfold MatchList.Match
  simp only
  by_cases hm : r ∈ runes S
  · have h1 : stringsIndex S (encodeRune r) ≠ -1 := key.mpr hm
    cases not <;> simp [Xor', hm, h1]
  · have h1 : stringsIndex S (encodeRune r) = -1 := by
      by_contra hc; exact hm (key.mp hc)
    cases not <;> simp [Xor', hm, h1]

theorem list_match_single_rune_witness :
    ValidRune 0x62 ∧ ((0x62 : Nat) ≠ RuneError ∨ ValidString [0x61, 0x62, 0x63]) ∧
    ((MatchList.mk [0x61, 0x62, 0x63] false).Match (encodeRune 0x62) = true ↔
      Xor' ((0x62 : Nat) ∈ runes [0x61, 0x62, 0x63]) (false = true)) :=
  ⟨by decide, by decide,
    list_match_single_rune [0x61, 0x62, 0x63] false 0x62 (by decide) (by decide)⟩

/-! ## `Max.Match` -/

theorem matchLoop_iff (self : MatchMax) : ∀ (steps : RuneSteps) (l : Int),
    self.matchLoop l steps = true ↔ steps = [] ∨ l + steps.length ≤ self.Limit := by
  intro steps
  induction steps with
  | nil => intro l; simp [MatchMax.matchLoop]
  | cons st rest ih =>
    intro l
    simp only [MatchMax.matchLoop]
    split_ifs with h
    · simp only [List.length_cons, Nat.cast_add, Nat.cast_one]
      constructor
      · intro hc; exact absurd hc (by simp)
      · rintro (hc | hc)
        · exact absurd hc (by simp)
        · omega
    · rw [ih (l + 1)]
      simp only [List.length_cons, Nat.cast_add, Nat.cast_one]
      constructor
      · rintro (hc | hc)
        · right; rw [hc]; simp only [List.length_nil, Nat.cast_zero]; omega
        · right; omega
      · rintro (hc | hc)
        · exact absurd hc (by simp)
        · right; omega

/-- With a limit that is not negative, `Max.Match` compares the number of runes with the
limit. -/
theorem max_match_true_iff (n : Int) (hn : 0 ≤ n) (s : GoString) :
    (MatchMax.mk n).Match s = true ↔ (runeCount s : Int) ≤ n := by
  unfold MatchMax.Match runeCount
  rw [matchLoop_iff]
  simp only [zero_add]
  constructor
  · rintro (h | h)
    · rw [h]; simpa using hn
    · exact h
  · intro h; exact Or.inr h

/-- Claim C3. For every limit `n >= 0` and every text `s`, `Max.Match` returns true if
and only if `s` has at most `n` runes. -/
theorem max_match_iff (n : Int) (hn : 0 ≤ n) (s : GoString) :
    (MatchMax.mk n).Match s = true ↔ (runeCount s : Int) ≤ n :=
  max_match_true_iff n hn s

theorem max_match_iff_witness :
    (0 : Int) ≤ 2 ∧ ((MatchMax.mk 2).Match [0x61, 0xC3, 0xA9] = true ↔
      (runeCount [0x61, 0xC3, 0xA9] : Int) ≤ 2) :=
  ⟨by decide, max_match_iff 2 (by decide) [0x61, 0xC3, 0xA9]⟩
/-! ## `List.Index` -/

/-- The offsets of the steps of `range` grow strictly and start no earlier than the text. -/
theorem rangeFrom_offsets : ∀ (n : Nat) (s : GoString) (i : Nat), s.length = n →
    (∀ st ∈ rangeFrom s.length i s, i ≤ st.off) ∧
    (rangeFrom s.length i s).Pairwise (fun a b => a.off < b.off) := by
  intro n
  induction n using Nat.strong_induction_on with
  | _ n ih =>
    intro s i hn
    cases s with
    | nil => rw [rangeFrom_nil]; simp
    | cons b t =>
      obtain ⟨r, w, q, hw, hlen, _, h, _⟩ := rangeFrom_step i b t
      obtain ⟨h1, h2⟩ := ih q.length (by omega) q (i + w) rfl
      rw [h]
      constructor
      · intro st hst
        rcases List.mem_cons.mp hst with rfl | hst
        · exact le_refl _
        · have := h1 st hst; omega
      · rw [List.pairwise_cons]
        refine ⟨fun st hst => ?_, h2⟩
        have := h1 st hst
        show i < st.off
        omega

/-- The loop of `List.Index` reports nothing exactly when no step satisfies the test. -/
theorem list_indexLoop_none (self : MatchList) : ∀ steps : RuneSteps,
    self.indexLoop steps = (-1, []) ↔
      ∀ st ∈ steps, ¬ (self.Not == (stringsIndexRune self.List st.rune == -1)) = true := by
  intro steps
  induction steps with
  | nil => simp [MatchList.indexLoop]
  | cons st rest ih =>
    simp only [MatchList.indexLoop, List.mem_cons, forall_eq_or_imp]
    split_ifs with h
    · constructor
      · intro hc
        have := congrArg Prod.fst hc
        simp only at this
        omega
      · intro hc; exact absurd h hc.1
    · rw [ih]
      constructor
      · intro hc; exact ⟨h, hc⟩
      · intro hc; exact hc.2

/-- The loop of `List.Index` reports the first step that satisfies the test. -/
theorem list_indexLoop_some (self : MatchList) : ∀ (steps : RuneSteps) (i : Int) (ends : IntSlice),
    self.indexLoop steps = (i, ends) → 0 ≤ i →
    ∃ pre st post, steps = pre ++ st :: post ∧
      (∀ x ∈ pre, ¬ (self.Not == (stringsIndexRune self.List x.rune == -1)) = true) ∧
      (self.Not == (stringsIndexRune self.List st.rune == -1)) = true ∧
      i = (st.off : Int) ∧ ends = [RuneLen st.rune] := by
  intro steps
  induction steps with
  | nil =>
    intro i ends h hi
    simp only [MatchList.indexLoop, Prod.mk.injEq] at h
    omega
  | cons st rest ih =>
    intro i ends h hi
    simp only [MatchList.indexLoop] at h
    split_ifs at h with hc
    · simp only [Prod.mk.injEq] at h
      exact ⟨[], st, rest, rfl, by simp, hc, h.1.symm, h.2.symm⟩
    · obtain ⟨pre, x, post, hsteps, hpre, hx, hi2, hends⟩ := ih i ends h hi
      refine ⟨st :: pre, x, post, by rw [hsteps]; rfl, ?_, hx, hi2, hends⟩
      intro y hy
      rcases List.mem_cons.mp hy with rfl | hy
      · exact hc
      · exact hpre y hy

/-- The test of `List.Index` on a rune is (the rune occurs in the list) XOR `Not`. -/
theorem list_test_iff (S : GoString) (not : Bool) (r : Nat) :
    (not == (stringsIndexRune S r == -1)) = true ↔ Xor' (r ∈ runes S) (not = true) := by
  have key := stringsIndexRune_ne_iff S r
  by_cases hm : r ∈ runes S
  · have h1 : stringsIndexRune S r ≠ -1 := key.mpr hm
    cases not <;> simp [Xor', hm, h1]
  · have h1 : stringsIndexRune S r = -1 := by
      by_contra hc; exact hm (key.mp hc)
    cases not <;> simp [Xor', hm, h1]

/-- Claim C7. Whenever `List.Index` reports a start offset `i >= 0`, `i` is the byte offset
of the first rune `r` of `s` with (`r` occurs in `S`) XOR `not`: the rune that begins at `i`
satisfies the condition and no rune that begins before `i` does. -/
theorem list_index_first (S : GoString) (not : Bool) (s : GoString) (i : Int) (ends : IntSlice)
    (h : (MatchList.mk S not).Index s = (i, ends)) (hi : 0 ≤ i) :
    ∃ st ∈ rangeString s, (st.off : Int) = i ∧ Xor' (st.rune ∈ runes S) (not = true) ∧
      ∀ st' ∈ rangeString s, st'.off < st.off → ¬ Xor' (st'.rune ∈ runes S) (not = true) := by
  unfold MatchList.Index at h
  obtain ⟨pre, st, post, hsteps, hpre, hst, hi2, _⟩ :=
    list_indexLoop_some (MatchList.mk S not) (rangeString s) i ends h hi
  refine ⟨st, by rw [hsteps]; simp, hi2.symm, (list_test_iff S not st.rune).mp hst, ?_⟩
  intro st' hmem hlt
  have hpw := (rangeFrom_offsets s.length s 0 rfl).2
  change (rangeString s).Pairwise _ at hpw
  rw [hsteps, List.pairwise_append] at hpw
  rw [hsteps, List.mem_append] at hmem
  rcases hmem with hmem | hmem
  · intro hx
    exact hpre st' hmem ((list_test_iff S not st'.rune).mpr hx)
  · exfalso
    rcases List.mem_cons.mp hmem with rfl | hmem
    · exact lt_irrefl _ hlt
    · have := (List.pairwise_cons.mp hpw.2.1).1 st' hmem
      omega

theorem list_index_first_witness :
    (MatchList.mk [0x62] false).Index [0x61, 0x62] = (1, [1]) ∧ (0 : Int) ≤ 1 ∧
    ∃ st ∈ rangeString [0x61, 0x62], (st.off : Int) = 1 ∧
      Xor' (st.rune ∈ runes [0x62]) (false = true) ∧
      ∀ st' ∈ rangeString [0x61, 0x62], st'.off < st.off →
        ¬ Xor' (st'.rune ∈ runes [0x62]) (false = true) :=
  ⟨by decide, by decide,
    list_index_first [0x62] false [0x61, 0x62] 1 [1] (by decide) (by decide)⟩

/-- Claim C8. `List.Index` reports no occurrence (start `-1` and no end offsets) if and only
if no rune `r` of `s` satisfies (`r` occurs in `S`) XOR `not`; in particular it reports no
occurrence on the empty text. -/
theorem list_index_none_iff (S : GoString) (not : Bool) (s : GoString) :
    ((MatchList.mk S not).Index s = (-1, []) ↔
      ∀ r ∈ runes s, ¬ Xor' (r ∈ runes S) (not = true)) ∧
    (MatchList.mk S not).Index [] = (-1, []) := by
  constructor
  · have hmem : ∀ r, r ∈ runes s ↔ ∃ st ∈ rangeString s, st.rune = r := by
      intro r; unfold runes; rw [List.mem_map]
    unfold MatchList.Index
    rw [list_indexLoop_none]
    constructor
    · intro hall r hr hx
      obtain ⟨st, hst, rfl⟩ := (hmem r).mp hr
      exact hall st hst ((list_test_iff S not st.rune).mpr hx)
    · intro hall st hst hx
      exact hall st.rune ((hmem st.rune).mpr ⟨st, hst, rfl⟩) ((list_test_iff S not st.rune).mp hx)
  · rfl

/-! ## `Max.Index` -/

/-- What a step of `range` that did not meet an ill-formed encoding consumed. -/
theorem rangeFrom_valid_step : ∀ (n : Nat) (s : GoString) (i : Nat), s.length = n →
    ∀ st ∈ rangeFrom s.length i s, ¬ (st.rune = RuneError ∧ st.width = 1) →
      RuneLen st.rune = (st.width : Int) ∧ ValidRune st.rune ∧ i ≤ st.off ∧
      st.off + st.width ≤ i + s.length ∧
      (s.drop (st.off - i)).take st.width = encodeRune st.rune := by
  intro n
  induction n using Nat.strong_induction_on with
  | _ n ih =>
    intro s i hn st hst hok
    cases s with
    | nil => rw [rangeFrom_nil] at hst; simp at hst
    | cons b t =>
      obtain ⟨r, w, q, hw, hlen, hq, h, hv⟩ := rangeFrom_step i b t
      rw [h] at hst
      rcases List.mem_cons.mp hst with rfl | hst
      · obtain ⟨h1, h2, h3⟩ := hv hok
        refine ⟨h2, h3, le_refl _, by simp only at *; omega, ?_⟩
        simp only [Nat.sub_self, List.drop_zero]
        exact h1
      · obtain ⟨h1, h2, h3, h4, h5⟩ := ih q.length (by omega) q (i + w) rfl st hst hok
        refine ⟨h1, h2, by omega, by omega, ?_⟩
        have e : st.off - i = w + (st.off - (i + w)) := by omega
        rw [e, ← List.drop_drop, hq]
        exact h5

/-- The ends of the runes grow strictly from the start of the text and finish at its
length. -/
theorem rangeFrom_ends : ∀ (n : Nat) (s : GoString) (i : Nat), s.length = n →
    List.Chain (· < ·) (i : Int)
      ((rangeFrom s.length i s).map (fun st => ((st.off + st.width : Nat) : Int))) ∧
    (((i : Int) :: (rangeFrom s.length i s).map
      (fun st => ((st.off + st.width : Nat) : Int))).getLast? = some ((i + s.length : Nat) : Int)) := by
  intro n
  induction n using Nat.strong_induction_on with
  | _ n ih =>
    intro s i hn
    cases s with
    | nil => rw [rangeFrom_nil]; simp
    | cons b t =>
      obtain ⟨r, w, q, hw, hlen, _, h, _⟩ := rangeFrom_step i b t
      obtain ⟨h1, h2⟩ := ih q.length (by omega) q (i + w) rfl
      rw [h, List.map_cons]
      constructor
      · rw [List.chain_cons]
        exact ⟨by simp only; push_cast; omega, h1⟩
      · rw [List.getLast?_cons_cons]
        simp only
        rw [h2, hlen]
        congr 1
        push_cast; omega

/-- The loop of `Max.Index` runs to the end of the text when the text is within the
limit. -/
theorem max_indexLoop_eq (self : MatchMax) : ∀ (steps : RuneSteps) (count : Int) (segments : IntSlice),
    (steps = [] ∨ count + steps.length ≤ self.Limit) →
    self.indexLoop count segments steps =
      segments ++ steps.map (fun st => (st.off : Int) + RuneLen st.rune) := by
  intro steps
  induction steps with
  | nil => intro count segments _; simp [MatchMax.indexLoop]
  | cons st rest ih =>
    intro count segments h
    have hle : count + ((st :: rest).length : Int) ≤ self.Limit := by
      rcases h with h | h
      · exact absurd h (by simp)
      · exact h
    simp only [List.length_cons, Nat.cast_add, Nat.cast_one] at hle
    simp only [MatchMax.indexLoop]
    rw [if_neg (by omega), ih (count + 1) _ (Or.inr (by omega))]
    simp

/-- A capacity `n + 1` that is not negative and fits into the largest allocation does not
wrap around and does not make `make` panic. -/
theorem make_accepts (n : Int) (hn : -1 ≤ n) (hcap : 8 * (n + 1) ≤ maxAlloc) :
    makeIntSlicePanics (wrapInt (n + 1)) = false := by
  unfold maxAlloc at hcap
  have hw : wrapInt (n + 1) = n + 1 := by
    unfold wrapInt; omega
  rw [hw]
  unfold makeIntSlicePanics maxAlloc
  simp only [Bool.or_eq_false_iff, decide_eq_false_iff_not]
  constructor <;> omega

/-- For a limit that is a Go `int`, `make` panics on the capacity `n + 1` exactly when
the limit is below `-1` or is `1 << 45` or more; the largest `int` is among the latter
because the capacity wraps around. -/
theorem make_panics_iff (n : Int) (hlo : -9223372036854775808 ≤ n)
    (hhi : n ≤ 9223372036854775807) :
    makeIntSlicePanics (wrapInt (n + 1)) = true ↔ n < -1 ∨ 35184372088832 ≤ n := by
  unfold makeIntSlicePanics maxAlloc wrapInt
  simp only [Bool.or_eq_true, decide_eq_true_eq]
  omega

/-- The value of `Max.Index` on a text that `Max.Match` accepts. -/
theorem max_index_of_match (n : Int) (s : GoString) (hm : (MatchMax.mk n).Match s = true)
    (hcap : makeIntSlicePanics (wrapInt (n + 1)) = false) :
    (MatchMax.mk n).Index s =
      some (0, 0 :: (rangeString s).map (fun st => (st.off : Int) + RuneLen st.rune)) := by
  have hm2 := hm
  unfold MatchMax.Match at hm2
  rw [matchLoop_iff] at hm2
  unfold MatchMax.Index
  rw [hm]
  simp only [Bool.not_true, Bool.false_eq_true, if_false]
  rw [hcap, max_indexLoop_eq _ _ _ _ hm2]
  rfl

/-- On well-formed text `utf8.RuneLen` gives the width of every rune of the text. -/
theorem runeLen_ends_eq (s : GoString) (hs : ValidString s) :
    (rangeString s).map (fun st => (st.off : Int) + RuneLen st.rune) = runeEnds s := by
  unfold runeEnds
  apply List.map_congr_left
  intro st hst
  have := (rangeFrom_valid_step s.length s 0 rfl st hst (hs st hst)).1
  rw [this]
  push_cast
  rfl

theorem runeEnds_sorted (s : GoString) : (0 :: runeEnds s).Sorted (· < ·) := by
  have h := (rangeFrom_ends s.length s 0 rfl).1
  have : List.Chain' (· < ·) ((0 : Int) :: runeEnds s) := h
  exact List.chain'_iff_pairwise.mp this

theorem runeEnds_getLast (s : GoString) :
    (0 :: runeEnds s).getLast? = some (s.length : Int) := by
  have h := (rangeFrom_ends s.length s 0 rfl).2
  simp only [Nat.cast_zero, zero_add] at h
  exact h

/-- Claim C4 fails as stated: on a text with more runes than the limit `Max.Index` reports
no occurrence instead of the ends of the prefixes of at most `n` runes. With limit 1 and
the text "ab" the claim asks for start 0 and the ends 0 and 1. It also fails for a limit
whose capacity `make` refuses: with the limit `1 << 45`, and with the largest `int`, whose
capacity wraps around, `Max.Index` panics on the text "a" instead of reporting the ends
0 and 1. -/
theorem max_index_over_limit_counterexample :
    (MatchMax.mk 1).Index [0x61, 0x62] = some (-1, []) ∧
    ¬ ((MatchMax.mk 1).Index [0x61, 0x62] =
        some (0, 0 :: (runeEnds [0x61, 0x62]).take 1)) ∧
    (MatchMax.mk 35184372088832).Index [0x61] = none ∧
    (MatchMax.mk 9223372036854775807).Index [0x61] = none ∧
    ¬ ((MatchMax.mk 9223372036854775807).Index [0x61] =
        some (0, 0 :: (runeEnds [0x61]).take 1)) := by
  decide

/-- Claim C4, amended. For every limit `n >= 0` whose capacity of `n + 1` integers fits
into the largest allocation (`8 * (n + 1) <= maxAlloc`, that is `n < 1 << 45`) and every
well-formed text `s`: when `s` has at most `n` runes, `Max.Index` reports start 0 with the
end offsets 0 and the end of every rune of `s`, in ascending order; when `s` has more than
`n` runes it reports no occurrence. -/
theorem max_index_within_limit (n : Int) (hn : 0 ≤ n) (hcap : 8 * (n + 1) ≤ maxAlloc)
    (s : GoString) (hs : ValidString s) :
    (MatchMax.mk n).Index s =
      (if (runeCount s : Int) ≤ n then some (0, 0 :: runeEnds s) else some (-1, [])) ∧
    (0 :: runeEnds s).Sorted (· < ·) := by
  refine ⟨?_, runeEnds_sorted s⟩
  split_ifs with h
  · rw [max_index_of_match n s ((max_match_true_iff n hn s).mpr h)
      (make_accepts n (by omega) hcap), runeLen_ends_eq s hs]
  · have hm : (MatchMax.mk n).Match s = false := by
      by_contra hc
      exact h ((max_match_true_iff n hn s).mp (by simpa using hc))
    unfold MatchMax.Index
    rw [hm]
    rfl

theorem max_index_within_limit_witness :
    (0 : Int) ≤ 2 ∧ 8 * ((2 : Int) + 1) ≤ maxAlloc ∧ ValidString [0x61, 0xC3, 0xA9] ∧
    ((MatchMax.mk 2).Index [0x61, 0xC3, 0xA9] =
      (if (runeCount [0x61, 0xC3, 0xA9] : Int) ≤ 2 then some (0, 0 :: runeEnds [0x61, 0xC3, 0xA9])
        else some (-1, [])) ∧
    (0 :: runeEnds [0x61, 0xC3, 0xA9]).Sorted (· < ·)) :=
  ⟨by decide, by decide, by decide,
    max_index_within_limit 2 (by decide) (by decide) [0x61, 0xC3, 0xA9] (by decide)⟩

/-- Claim C5 fails as stated: on the one-byte text `"\xff"`, which is not well-formed,
`Max{1}.Match` is true while `Max{1}.Index` reports the ends 0 and 3, none of which is the
byte length 1 of the text. It also fails for a limit whose capacity `make` refuses: with
the largest `int`, whose capacity wraps around, `Max.Match` is true on the text "a" while
`Max.Index` panics and reports nothing. -/
theorem max_match_index_counterexample :
    ¬ ((MatchMax.mk 1).Match [0xFF] = true ↔
      ∃ ends, (MatchMax.mk 1).Index [0xFF] = some (0, ends) ∧
        ((([0xFF] : GoString).length : Nat) : Int) ∈ ends) ∧
    ¬ ((MatchMax.mk 9223372036854775807).Match [0x61] = true ↔
      ∃ ends, (MatchMax.mk 9223372036854775807).Index [0x61] = some (0, ends) ∧
        ((([0x61] : GoString).length : Nat) : Int) ∈ ends) := by
  constructor
  · intro h
    obtain ⟨ends, he, hmem⟩ := h.mp (by decide)
    have hi : (MatchMax.mk 1).Index [0xFF] = some (0, [0, 3]) := by decide
    rw [hi] at he
    simp only [Option.some.injEq, Prod.mk.injEq, true_and] at he
    subst he
    revert hmem
    decide
  · intro h
    obtain ⟨ends, he, _⟩ := h.mp (by decide)
    have hi : (MatchMax.mk 9223372036854775807).Index [0x61] = none := by decide
    rw [hi] at he
    exact Option.noConfusion he

/-- Claim C5, amended. For every limit `n >= 0` whose capacity of `n + 1` integers fits
into the largest allocation (`8 * (n + 1) <= maxAlloc`, that is `n < 1 << 45`) and every
well-formed text `t`, `Max.Match` is true if and only if `Max.Index` reports an occurrence
with start 0 and with some end offset equal to the byte length of `t`. -/
theorem max_match_iff_index (n : Int) (hn : 0 ≤ n) (hcap : 8 * (n + 1) ≤ maxAlloc)
    (t : GoString) (ht : ValidString t) :
    (MatchMax.mk n).Match t = true ↔
      ∃ ends, (MatchMax.mk n).Index t = some (0, ends) ∧ ((t.length : Nat) : Int) ∈ ends := by
  constructor
  · intro hm
    refine ⟨0 :: runeEnds t, ?_, ?_⟩
    · rw [max_index_of_match n t hm (make_accepts n (by omega) hcap), runeLen_ends_eq t ht]
    · exact List.mem_of_getLast?_eq_some (runeEnds_getLast t)
  · rintro ⟨ends, he, _⟩
    by_contra hc
    have hm : (MatchMax.mk n).Match t = false := by simpa using hc
    unfold MatchMax.Index at he
    rw [hm] at he
    simp at he

theorem max_match_iff_index_witness :
    (0 : Int) ≤ 2 ∧ 8 * ((2 : Int) + 1) ≤ maxAlloc ∧ ValidString [0x61, 0xC3, 0xA9] ∧
    ((MatchMax.mk 2).Match [0x61, 0xC3, 0xA9] = true ↔
      ∃ ends, (MatchMax.mk 2).Index [0x61, 0xC3, 0xA9] = some (0, ends) ∧
        ((([0x61, 0xC3, 0xA9] : GoString).length : Nat) : Int) ∈ ends) :=
  ⟨by decide, by decide, by decide,
    max_match_iff_index 2 (by decide) (by decide) [0x61, 0xC3, 0xA9] (by decide)⟩

/-- Claim C10 fails as stated: on `"\xff"`, which is not well-formed, `Max{1}.Index`
reports the ends 0 and 3, the last of which is not the byte length 1 of the text; on
`"\xffa"` `Max{2}.Index` reports the ends 0, 3 and 2, which are not ascending. -/
theorem max_index_ends_counterexample :
    (MatchMax.mk 1).Index [0xFF] = some (0, [0, 3]) ∧
    ([0, 3] : IntSlice).getLast? ≠ some ((([0xFF] : GoString).length : Nat) : Int) ∧
    (MatchMax.mk 2).Index [0xFF, 0x61] = some (0, [0, 3, 2]) ∧
    ¬ ([0, 3, 2] : IntSlice).Sorted (· < ·) := by
  refine ⟨by decide, by decide, by decide, by decide⟩

/-- Claim C10, amended. For every limit `n` and every well-formed text `s`, whenever
`Max.Index` reports an occurrence, its list of end offsets is strictly ascending, its
first element is 0 and its last element is the byte length of `s`. -/
theorem max_index_ends (n : Int) (s : GoString) (hs : ValidString s) (i : Int) (ends : IntSlice)
    (h : (MatchMax.mk n).Index s = some (i, ends)) (hi : i ≠ -1) :
    ends.Sorted (· < ·) ∧ ends.head? = some 0 ∧ ends.getLast? = some ((s.length : Nat) : Int) := by
  have hm : (MatchMax.mk n).Match s = true := by
    by_contra hc
    have hm : (MatchMax.mk n).Match s = false := by simpa using hc
    unfold MatchMax.Index at h
    rw [hm] at h
    simp only [Bool.not_false, if_true, Option.some.injEq, Prod.mk.injEq] at h
    exact hi h.1.symm
  have hcap : makeIntSlicePanics (wrapInt (n + 1)) = false := by
    by_contra hc
    have hp : makeIntSlicePanics (wrapInt (n + 1)) = true := by simpa using hc
    unfold MatchMax.Index at h
    rw [hm] at h
    simp only [Bool.not_true, Bool.false_eq_true, if_false] at h
    rw [hp] at h
    exact Option.noConfusion h
  rw [max_index_of_match n s hm hcap, runeLen_ends_eq s hs] at h
  simp only [Option.some.injEq, Prod.mk.injEq] at h
  rw [← h.2]
  exact ⟨runeEnds_sorted s, rfl, runeEnds_getLast s⟩

theorem max_index_ends_witness :
    ValidString [0x61, 0xC3, 0xA9] ∧
    (MatchMax.mk 2).Index [0x61, 0xC3, 0xA9] = some (0, [0, 1, 3]) ∧ (0 : Int) ≠ -1 ∧
    (([0, 1, 3] : IntSlice).Sorted (· < ·) ∧ ([0, 1, 3] : IntSlice).head? = some 0 ∧
      ([0, 1, 3] : IntSlice).getLast? = some ((([0x61, 0xC3, 0xA9] : GoString).length : Nat) : Int)) :=
  ⟨by decide, by decide, by decide,
    max_index_ends 2 [0x61, 0xC3, 0xA9] (by decide) 0 [0, 1, 3] (by decide) (by decide)⟩

/-! ## `List.Index`: what is reported with the start -/

/-- Claim C9 fails as stated: with the list "b" and the text "ab", `List.Index` reports
the start 1 and the single value 1, the width of the rune, while the byte offset at which
the rune ends is 2. -/
theorem list_index_end_counterexample :
    (MatchList.mk [0x62] false).Index [0x61, 0x62] = (1, [1]) ∧
    ¬ (∀ e ∈ ([1] : IntSlice), ∃ st ∈ rangeString [0x61, 0x62],
        (st.off : Int) = 1 ∧ e = (1 : Int) + (st.width : Int)) := by
  decide

/-- Claim C9, amended. The value reported by `List.Index` with the start is a length
counted from the start, not a byte offset into the text: for every character set `S`,
flag `not` and well-formed text `s`, whenever `List.Index` reports `(start, ends)` with
`start >= 0`, `ends` holds exactly the byte width `w` of the rune that begins at `start`,
so that `s[start : start+w]` is exactly that rune. -/
theorem list_index_width (S : GoString) (not : Bool) (s : GoString) (hs : ValidString s)
    (i : Int) (ends : IntSlice) (h : (MatchList.mk S not).Index s = (i, ends)) (hi : 0 ≤ i) :
    ∃ st ∈ rangeString s, (st.off : Int) = i ∧ ends = [(st.width : Int)] ∧
      (s.drop st.off).take st.width = encodeRune st.rune := by
  unfold MatchList.Index at h
  obtain ⟨pre, st, post, hsteps, _, _, hi2, hends⟩ :=
    list_indexLoop_some (MatchList.mk S not) (rangeString s) i ends h hi
  have hst : st ∈ rangeString s := by rw [hsteps]; simp
  obtain ⟨h1, _, _, _, h5⟩ := rangeFrom_valid_step s.length s 0 rfl st hst (hs st hst)
  refine ⟨st, hst, hi2.symm, by rw [hends, h1], ?_⟩
  simpa using h5

theorem list_index_width_witness :
    ValidString [0x61, 0xC3, 0xA9] ∧
    (MatchList.mk [0xC3, 0xA9] false).Index [0x61, 0xC3, 0xA9] = (1, [2]) ∧ (0 : Int) ≤ 1 ∧
    ∃ st ∈ rangeString [0x61, 0xC3, 0xA9], (st.off : Int) = 1 ∧
      ([2] : IntSlice) = [(st.width : Int)] ∧
      (([0x61, 0xC3, 0xA9] : GoString).drop st.off).take st.width = encodeRune st.rune :=
  ⟨by decide, by decide, by decide,
    list_index_width [0xC3, 0xA9] false [0x61, 0xC3, 0xA9] (by decide) 1 [2] (by decide)
      (by decide)⟩

/-! ## `List.Match` on texts that are not one rune -/

/-- Claim C2, the code at the failing inputs: `List.Match` with the list "abc" accepts
the empty text and the two-rune text "ab", and the negated list accepts the two-rune
text "xy", although `List.Len` declares a length of exactly one rune. -/
theorem list_match_accepts_other_lengths :
    (MatchList.mk [0x61, 0x62, 0x63] false).Match [] = true ∧ runeCount [] = 0 ∧
    (MatchList.mk [0x61, 0x62, 0x63] false).Match [0x61, 0x62] = true ∧
    runeCount [0x61, 0x62] = 2 ∧
    (MatchList.mk [0x61, 0x62, 0x63] true).Match [0x78, 0x79] = true ∧
    runeCount [0x78, 0x79] = 2 ∧
    (MatchList.mk [0x61, 0x62, 0x63] false).Len = 1 := by
  decide

/-- Claim C6, the code at the failing inputs: with the list "abc", `List.Match` accepts
the empty text while `List.Index` reports no occurrence on it, and `List.Match` accepts
the text "ab" of two bytes while `List.Index` reports the start 0 with the single
value 1. -/
theorem list_match_index_disagree :
    (MatchList.mk [0x61, 0x62, 0x63] false).Match [] = true ∧
    (MatchList.mk [0x61, 0x62, 0x63] false).Index [] = (-1, []) ∧
    (MatchList.mk [0x61, 0x62, 0x63] false).Match [0x61, 0x62] = true ∧
    (MatchList.mk [0x61, 0x62, 0x63] false).Index [0x61, 0x62] = (0, [1]) ∧
    (([0x61, 0x62] : GoString).length : Int) ∉ ([1] : IntSlice) := by
  decide


/-! ## `List.Match` and its negation -/

/-- Claim C15. For every character set `S` and every text `s` of any length,
`List{S, Not: true}.Match(s)` is the Boolean negation of `List{S, Not: false}.Match(s)`;
hence for every text exactly one of the list and its negation matches. -/
theorem list_match_negation (S s : GoString) :
    (MatchList.mk S true).Match s = !(MatchList.mk S false).Match s ∧
    Xor' ((MatchList.mk S true).Match s = true) ((MatchList.mk S false).Match s = true) := by
  unfold MatchList.Match
  simp only
  cases h : (stringsIndex S s != -1) <;> simp [Xor']

/-! ## `Max.Index`: the allocation and the loop -/

/-- Method `Max.Index` panics exactly when `Max.Match` accepts the text and `make`
refuses the capacity. -/
theorem max_index_none_iff (n : Int) (s : GoString) :
    (MatchMax.mk n).Index s = none ↔
      (MatchMax.mk n).Match s = true ∧ makeIntSlicePanics (wrapInt (n + 1)) = true := by
  unfold MatchMax.Index
  cases hm : (MatchMax.mk n).Match s <;> cases hp : makeIntSlicePanics (wrapInt (n + 1)) <;>
    simp

/-- With a negative limit that is a Go `int`, `Max.Index` panics exactly on the empty
text with a limit below `-1`. -/
theorem max_index_none_negative (n : Int) (hlo : -9223372036854775808 ≤ n) (hn : n < 0)
    (s : GoString) :
    (MatchMax.mk n).Index s = none ↔ n < -1 ∧ runeCount s = 0 := by
  rw [max_index_none_iff, make_panics_iff n hlo (by omega)]
  unfold MatchMax.Match runeCount
  rw [matchLoop_iff]
  simp only [zero_add]
  constructor
  · rintro ⟨hm, hp⟩
    refine ⟨by omega, ?_⟩
    rcases hm with h0 | h0
    · rw [h0]; rfl
    · omega
  · rintro ⟨h1, h0⟩
    exact ⟨Or.inl (List.length_eq_zero.mp h0), Or.inl h1⟩

/-- Claim C13, the code at the failing input: with the limit `-2` and the empty text
`Max.Match` returns true, so `Max.Index` reaches `make([]int, 0, self.Limit+1)` with the
capacity `-1` and panics instead of returning a result. -/
theorem max_index_negative_limit_panics :
    (MatchMax.mk (-2)).Match [] = true ∧ (MatchMax.mk (-2)).Limit + 1 < 0 ∧
    (MatchMax.mk (-2)).Index [] = none := by
  decide

theorem max_indexBreaks_false (self : MatchMax) : ∀ (steps : RuneSteps) (count : Int),
    (steps = [] ∨ count + steps.length ≤ self.Limit) → self.indexBreaks count steps = false := by
  intro steps
  induction steps with
  | nil => intro count _; rfl
  | cons st rest ih =>
    intro count h
    have hle : count + ((st :: rest).length : Int) ≤ self.Limit := by
      rcases h with h | h
      · exact absurd h (by simp)
      · exact h
    simp only [List.length_cons, Nat.cast_add, Nat.cast_one] at hle
    simp only [MatchMax.indexBreaks]
    rw [if_neg (by omega)]
    exact ih (count + 1) (Or.inr (by omega))

/-- Claim C14 fails as stated: with the largest `int` as limit the capacity
`self.Limit+1` wraps around, and with the limit `1 << 45` it exceeds the largest
allocation, so on the one-rune text "a", which is within the limit, `Max.Index` panics
instead of reporting the start 0 with two end offsets. -/
theorem max_index_report_counterexample :
    (runeCount [0x61] : Int) ≤ 9223372036854775807 ∧
    (MatchMax.mk 9223372036854775807).Index [0x61] = none ∧
    ¬ (∃ ends, (MatchMax.mk 9223372036854775807).Index [0x61] = some (0, ends) ∧
        ends.length = runeCount [0x61] + 1) ∧
    (runeCount [0x61] : Int) ≤ 35184372088832 ∧
    (MatchMax.mk 35184372088832).Index [0x61] = none := by
  refine ⟨by decide, by decide, ?_, by decide, by decide⟩
  rintro ⟨ends, he, _⟩
  have hi : (MatchMax.mk 9223372036854775807).Index [0x61] = none := by decide
  rw [hi] at he
  exact Option.noConfusion he

/-- Claim C14, amended. For every limit `n >= 0` and every text `s`, `Max.Index` reports
no occurrence (start `-1` and no end offsets) if and only if `s` has more than `n` runes;
otherwise, when the capacity of `n + 1` integers fits into the largest allocation
(`8 * (n + 1) <= maxAlloc`, that is `n < 1 << 45`), it reports start 0 with exactly
`rune-count(s) + 1` end offsets; and whenever its loop is reached the loop does not leave
through the `break`. -/
theorem max_index_report (n : Int) (hn : 0 ≤ n) (s : GoString) :
    ((MatchMax.mk n).Index s = some (-1, []) ↔ n < (runeCount s : Int)) ∧
    ((runeCount s : Int) ≤ n → 8 * (n + 1) ≤ maxAlloc →
      ∃ ends, (MatchMax.mk n).Index s = some (0, ends) ∧ ends.length = runeCount s + 1) ∧
    ((MatchMax.mk n).Match s = true → (MatchMax.mk n).indexBreaks 0 (rangeString s) = false) := by
  have hiff := max_match_true_iff n hn s
  refine ⟨?_, ?_, ?_⟩
  · constructor
    · intro h
      by_contra hc
      have hm : (MatchMax.mk n).Match s = true := hiff.mpr (by omega)
      unfold MatchMax.Index at h
      rw [hm] at h
      simp only [Bool.not_true, Bool.false_eq_true, if_false] at h
      split_ifs at h
      simp only [Option.some.injEq, Prod.mk.injEq] at h
      omega
    · intro h
      have hm : (MatchMax.mk n).Match s = false := by
        by_contra hc
        have := hiff.mp (by simpa using hc)
        omega
      unfold MatchMax.Index
      rw [hm]
      rfl
  · intro h hcap
    have hm : (MatchMax.mk n).Match s = true := hiff.mpr h
    refine ⟨_, max_index_of_match n s hm (make_accepts n (by omega) hcap), ?_⟩
    simp [runeCount]
  · intro hm
    unfold MatchMax.Match at hm
    rw [matchLoop_iff] at hm
    exact max_indexBreaks_false _ _ _ hm

theorem max_index_report_witness :
    (0 : Int) ≤ 2 ∧ (runeCount [0x61, 0xFF] : Int) ≤ 2 ∧ 8 * ((2 : Int) + 1) ≤ maxAlloc ∧
    (MatchMax.mk 2).Match [0x61, 0xFF] = true ∧
    ¬ ((MatchMax.mk 2).Index [0x61, 0xFF] = some (-1, [])) ∧
    (∃ ends, (MatchMax.mk 2).Index [0x61, 0xFF] = some (0, ends) ∧
      ends.length = runeCount [0x61, 0xFF] + 1) ∧
    (MatchMax.mk 2).indexBreaks 0 (rangeString [0x61, 0xFF]) = false :=
  ⟨by decide, by decide, by decide, by decide,
    fun h => absurd ((max_index_report 2 (by decide) [0x61, 0xFF]).1.mp h) (by decide),
    (max_index_report 2 (by decide) [0x61, 0xFF]).2.1 (by decide) (by decide),
    (max_index_report 2 (by decide) [0x61, 0xFF]).2.2 (by decide)⟩

/-! ## The fusion of single-rune wildcards -/

/-- Claim C12. For every `k >= 1` and every text `t`, `t` has exactly `k` runes, which is
what `k` consecutive single-rune wildcards without separators match, if and only if `t`
has at least `k` runes (`Min{k}`) and `Max{k}.Match(t)` is true: the fused
`EveryOf{Min{k}, Max{k}}`. For `k = 3` the text "abc" is accepted and "ab" is rejected. -/
theorem singles_fusion (k : Nat) (hk : 1 ≤ k) (t : GoString) :
    (runeCount t = k ↔
      (MatchEveryOf.mk [(MatchMin.mk k).Match, (MatchMax.mk k).Match]).Match t = true) ∧
    (MatchEveryOf.mk [(MatchMin.mk 3).Match, (MatchMax.mk 3).Match]).Match [0x61, 0x62, 0x63]
      = true ∧
    (MatchEveryOf.mk [(MatchMin.mk 3).Match, (MatchMax.mk 3).Match]).Match [0x61, 0x62]
      = false := by
  refine ⟨?_, by decide, by decide⟩
  have hmax := max_match_true_iff (k : Int) (by omega) t
  simp only [MatchEveryOf.Match, List.all_cons, List.all_nil, Bool.and_true, Bool.and_eq_true,
    MatchMin.Match, decide_eq_true_eq]
  rw [hmax]
  omega

theorem singles_fusion_witness :
    1 ≤ 2 ∧
    ((runeCount [0x61, 0xC3, 0xA9] = 2 ↔
      (MatchEveryOf.mk [(MatchMin.mk (2 : Nat)).Match, (MatchMax.mk (2 : Nat)).Match]).Match
        [0x61, 0xC3, 0xA9] = true) ∧
    (MatchEveryOf.mk [(MatchMin.mk 3).Match, (MatchMax.mk 3).Match]).Match [0x61, 0x62, 0x63]
      = true ∧
    (MatchEveryOf.mk [(MatchMin.mk 3).Match, (MatchMax.mk 3).Match]).Match [0x61, 0x62]
      = false) :=
  ⟨by decide, singles_fusion 2 (by decide) [0x61, 0xC3, 0xA9]⟩

/-! ## `List.Index` against `List.Match` -/

/-- On the text that holds exactly the rune `r`, `List.Match` tests whether `r` is among
the runes of the list. -/
theorem list_match_encodeRune (S : GoString) (not : Bool) (r : Nat) (hr : ValidRune r)
    (hS : r ≠ RuneError ∨ ValidString S) :
    (MatchList.mk S not).Match (encodeRune r) = true ↔ Xor' (r ∈ runes S) (not = true) := by
  have key : stringsIndex S (encodeRune r) ≠ -1 ↔ r ∈ runes S := by
    rw [stringsIndex_ne_iff]
    exact ⟨mem_runes_of_occurs r hr S.length S 0 rfl,
      fun hm => occurs_of_mem_runes r S.length S 0 rfl hm hS⟩
  unfold MatchList.Match
  simp only
  by_cases hm : r ∈ runes S
  · have h1 : stringsIndex S (encodeRune r) ≠ -1 := key.mpr hm
    cases not <;> simp [Xor', hm, h1]
  · have h1 : stringsIndex S (encodeRune r) = -1 := by
      by_contra hc; exact hm (key.mp hc)
    cases not <;> simp [Xor', hm, h1]

/-- The text that holds exactly the rune `r` is one step of `range`. -/
theorem rangeString_encodeRune (r : Nat) (hr : ValidRune r) :
    rangeString (encodeRune r) = [⟨0, r, (encodeRune r).length⟩] := by
  obtain ⟨b, t, hbt, _, _⟩ := encodeRune_shape r
  have hd := decodeRune_encodeRune_append r hr []
  rw [List.append_nil] at hd
  unfold rangeString
  rw [hbt, rangeFrom_cons, ← hbt, hd]
  simp only [List.drop_length, List.length_nil, zero_add]
  rw [rangeFrom_nil]

/-- Claim C16 fails as stated: the list `"\xff"` is not well-formed, so on the valid text
that holds the replacement character U+FFFD `List.Index` reports the start 0 with the
value 3, because `strings.IndexRune` finds U+FFFD at the ill-formed byte of the list, yet
`List.Match` on the slice `s[0:3]` searches for the encoding of U+FFFD and returns
false. -/
theorem list_index_agrees_match_counterexample :
    ValidString [0xEF, 0xBF, 0xBD] ∧
    (MatchList.mk [0xFF] false).Index [0xEF, 0xBF, 0xBD] = (0, [3]) ∧
    (MatchList.mk [0xFF] false).Match
      ((([0xEF, 0xBF, 0xBD] : GoString).drop (0 : Int).toNat).take (3 : Int).toNat) = false := by
  decide

/-- Claim C16, amended. For every character set `S`, flag `not` and valid UTF-8 text `s`,
where `S` is well-formed UTF-8 or `s` holds no replacement character U+FFFD, whenever
`List.Index` reports the start `i` with the single value `w`, then `i + w` is at most the
byte length of `s`, the slice `s[i : i+w]` is exactly one rune, and `List.Match` is true
on that slice. -/
theorem list_index_agrees_match (S : GoString) (not : Bool) (s : GoString) (hs : ValidString s)
    (hS : ValidString S ∨ RuneError ∉ runes s) (i w : Int)
    (h : (MatchList.mk S not).Index s = (i, [w])) :
    0 ≤ i ∧ 0 ≤ w ∧ i + w ≤ (s.length : Int) ∧
    (∃ r, ValidRune r ∧ (s.drop i.toNat).take w.toNat = encodeRune r) ∧
    runeCount ((s.drop i.toNat).take w.toNat) = 1 ∧
    (MatchList.mk S not).Match ((s.drop i.toNat).take w.toNat) = true := by
  have hi : 0 ≤ i := by
    by_contra hc
    have hnone : (MatchList.mk S not).Index s = (-1, []) := by
      unfold MatchList.Index at h ⊢
      rw [list_indexLoop_none]
      intro st hst hx
      have : ∀ (steps : RuneSteps), st ∈ steps →
          (MatchList.mk S not).indexLoop steps ≠ (i, [w]) := by
        intro steps
        induction steps with
        | nil => intro hmem; simp at hmem
        | cons x rest ih =>
          intro hmem heq
          simp only [MatchList.indexLoop] at heq
          split_ifs at heq with hc2
          · simp only [Prod.mk.injEq] at heq
            omega
          · rcases List.mem_cons.mp hmem with rfl | hmem
            · exact hc2 hx
            · exact ih hmem heq
      exact this _ hst h
    rw [hnone] at h
    simp at h
  unfold MatchList.Index at h
  obtain ⟨pre, st, post, hsteps, _, hst, hi2, hends⟩ :=
    list_indexLoop_some (MatchList.mk S not) (rangeString s) i [w] h hi
  have hmem : st ∈ rangeString s := by rw [hsteps]; simp
  obtain ⟨h1, h2, _, h4, h5⟩ := rangeFrom_valid_step s.length s 0 rfl st hmem (hs st hmem)
  simp only [List.cons.injEq, and_true] at hends
  have hw : w = (st.width : Int) := by rw [hends, h1]
  have hslice : (s.drop i.toNat).take w.toNat = encodeRune st.rune := by
    rw [hi2, hw]
    simpa using h5
  have hne : st.rune ≠ RuneError ∨ ValidString S := by
    rcases hS with hS | hS
    · exact Or.inr hS
    · left
      intro hc
      apply hS
      unfold runes
      exact List.mem_map.mpr ⟨st, hmem, hc⟩
  refine ⟨hi, by omega, by rw [hi2, hw]; omega, ⟨st.rune, h2, hslice⟩, ?_, ?_⟩
  · rw [hslice]
    unfold runeCount
    rw [rangeString_encodeRune st.rune h2]
    rfl
  · rw [hslice, list_match_encodeRune S not st.rune h2 hne]
    exact (list_test_iff S not st.rune).mp hst

theorem list_index_agrees_match_witness :
    ValidString [0x61, 0xC3, 0xA9] ∧
    (ValidString [0xC3, 0xA9] ∨ RuneError ∉ runes [0x61, 0xC3, 0xA9]) ∧
    (MatchList.mk [0xC3, 0xA9] false).Index [0x61, 0xC3, 0xA9] = (1, [2]) ∧
    ((0 : Int) ≤ 1 ∧ (0 : Int) ≤ 2 ∧ (1 : Int) + 2 ≤ (([0x61, 0xC3, 0xA9] : GoString).length : Int) ∧
      (∃ r, ValidRune r ∧
        (([0x61, 0xC3, 0xA9] : GoString).drop (1 : Int).toNat).take (2 : Int).toNat = encodeRune r) ∧
      runeCount ((([0x61, 0xC3, 0xA9] : GoString).drop (1 : Int).toNat).take (2 : Int).toNat) = 1 ∧
      (MatchList.mk [0xC3, 0xA9] false).Match
        ((([0x61, 0xC3, 0xA9] : GoString).drop (1 : Int).toNat).take (2 : Int).toNat) = true) :=
  ⟨by decide, by decide, by decide,
    list_index_agrees_match [0xC3, 0xA9] false [0x61, 0xC3, 0xA9] (by decide) (by decide) 1 2
      (by decide)⟩

/-! ## The fusion of a negated list with a wildcard -/

/-- The steps of `range` do not depend on the offset at which the text starts, except
for their own offsets. -/
theorem rangeFrom_shift : ∀ (fuel i : Nat) (s : GoString),
    rangeFrom fuel i s =
      (rangeFrom fuel 0 s).map (fun st => (⟨st.off + i, st.rune, st.width⟩ : RuneStep)) := by
  intro fuel
  induction fuel with
  | zero => intro i s; rfl
  | succ fuel ih =>
    intro i s
    cases s with
    | nil => rfl
    | cons b t =>
      simp only [rangeFrom, List.map_cons, zero_add]
      congr 1
      rw [ih (i + (decodeRune (b :: t)).2), ih (decodeRune (b :: t)).2, List.map_map]
      apply List.map_congr_left
      intro st _
      simp only [Function.comp, RuneStep.mk.injEq, and_true]
      omega

theorem runes_shift (i : Nat) (s : GoString) :
    (rangeFrom s.length i s).map RuneStep.rune = runes s := by
  unfold runes rangeString
  rw [rangeFrom_shift, List.map_map]
  rfl

theorem runeCount_shift (i : Nat) (s : GoString) :
    (rangeFrom s.length i s).length = runeCount s := by
  unfold runeCount rangeString
  rw [rangeFrom_shift, List.length_map]

theorem validString_shift (i : Nat) (s : GoString)
    (h : ∀ st ∈ rangeFrom s.length i s, ¬ (st.rune = RuneError ∧ st.width = 1)) :
    ValidString s := by
  intro st hst
  rw [rangeFrom_shift] at h
  exact h ⟨st.off + i, st.rune, st.width⟩ (List.mem_map.mpr ⟨st, hst, rfl⟩)

theorem runeCount_pos (b : Nat) (t : GoString) : 1 ≤ runeCount (b :: t) := by
  obtain ⟨r, w, q, _, _, _, h, _⟩ := rangeFrom_step 0 b t
  unfold runeCount rangeString
  rw [h]
  simp

/-- A text of exactly one rune is one byte or the encoding of one rune. -/
theorem runeCount_eq_one (u : GoString) (h : runeCount u = 1) :
    (∃ b, u = [b]) ∨ (∃ r, ValidRune r ∧ u = encodeRune r) := by
  cases u with
  | nil => exact absurd h (by decide)
  | cons b t =>
    have hq : ∀ (i : Nat) (q : GoString), (rangeFrom q.length i q).length = 0 → q = [] := by
      intro i q hlen
      cases q with
      | nil => rfl
      | cons c q =>
        exfalso
        rw [runeCount_shift] at hlen
        have := runeCount_pos c q
        omega
    unfold runeCount rangeString at h
    rcases rangeFrom_cases 0 b t with ⟨_, hc⟩ | ⟨_, hc⟩ | ⟨r, q, _, hv, hs, hc⟩
    · rw [hc, List.length_cons] at h
      left
      exact ⟨b, by rw [hq (0 + 1) t (by omega)]⟩
    · rw [hc, List.length_cons] at h
      left
      exact ⟨b, by rw [hq (0 + 1) t (by omega)]⟩
    · rw [hc, List.length_cons] at h
      right
      refine ⟨r, hv, ?_⟩
      rw [hs, hq (0 + (encodeRune r).length) q (by omega), List.append_nil]

theorem runes_encodeRune (r : Nat) (hr : ValidRune r) : runes (encodeRune r) = [r] := by
  unfold runes
  rw [rangeString_encodeRune r hr]
  rfl

theorem list_not_match_iff (S u : GoString) :
    (MatchList.mk S true).Match u = true ↔ ¬ u <:+: S := by
  rw [← stringsIndex_ne_iff]
  unfold MatchList.Match
  simp

theorem contains_not_match_iff (S t : GoString) :
    (MatchContains.mk S true).Match t = true ↔ ¬ S <:+: t := by
  rw [← stringsIndex_ne_iff]
  unfold MatchContains.Match
  simp

theorem every_min_contains_iff (S t : GoString) :
    (MatchEveryOf.mk [(MatchMin.mk 1).Match, (MatchContains.mk S true).Match]).Match t = true ↔
      1 ≤ runeCount t ∧ ¬ S <:+: t := by
  simp only [MatchEveryOf.Match, List.all_cons, List.all_nil, Bool.and_true, Bool.and_eq_true,
    contains_not_match_iff, MatchMin.Match, decide_eq_true_eq]
  constructor
  · rintro ⟨h1, h2⟩; exact ⟨by omega, h2⟩
  · rintro ⟨h1, h2⟩; exact ⟨by omega, h2⟩

theorem runes_encodeRune_append (r : Nat) (hr : ValidRune r) (v : GoString) :
    runes (encodeRune r ++ v) = r :: runes v := by
  obtain ⟨b, t, hbt, _, _⟩ := encodeRune_shape r
  have hd := decodeRune_encodeRune_append r hr v
  have hcons : encodeRune r ++ v = b :: (t ++ v) := by rw [hbt]; rfl
  unfold runes rangeString
  rw [hcons, rangeFrom_cons, ← hcons, hd]
  simp only [List.drop_left, List.map_cons, zero_add]
  rw [runes_shift]
  rfl

theorem any_match_iff (S v : GoString) :
    (MatchAny.mk S).Match v = true ↔ ∀ r ∈ runes v, r ∉ runes S := by
  unfold MatchAny.Match
  simp only [decide_eq_true_eq]

/-- Claim C11 fails as stated, in three ways. With the set "ab" the text "a" cannot be
split into a rune outside the set and a rest, yet it has one rune and does not contain
"ab". With the set "a" the text "ba" can be split, because `List.Match` accepts the
whole of "ba", yet it contains "a". With the set "é" the one-byte text `"\xC3"`, which is
not well-formed, cannot be split, yet it has one rune and does not contain "é". -/
theorem list_any_fusion_counterexample :
    ¬ ((∃ u v, ([0x61] : GoString) = u ++ v ∧ (MatchList.mk [0x61, 0x62] true).Match u = true ∧
          (MatchAny.mk [0x61, 0x62]).Match v = true) ↔
        (MatchEveryOf.mk [(MatchMin.mk 1).Match,
          (MatchContains.mk [0x61, 0x62] true).Match]).Match [0x61] = true) ∧
    ¬ ((∃ u v, ([0x62, 0x61] : GoString) = u ++ v ∧ (MatchList.mk [0x61] true).Match u = true ∧
          (MatchAny.mk [0x61]).Match v = true) ↔
        (MatchEveryOf.mk [(MatchMin.mk 1).Match,
          (MatchContains.mk [0x61] true).Match]).Match [0x62, 0x61] = true) ∧
    ¬ ((∃ u v, ([0xC3] : GoString) = u ++ v ∧ (MatchList.mk [0xC3, 0xA9] true).Match u = true ∧
          (MatchAny.mk [0xC3, 0xA9]).Match v = true) ↔
        (MatchEveryOf.mk [(MatchMin.mk 1).Match,
          (MatchContains.mk [0xC3, 0xA9] true).Match]).Match [0xC3] = true) := by
  refine ⟨?_, ?_, ?_⟩
  · intro h
    obtain ⟨u, v, huv, hm, _⟩ := h.mpr (by decide)
    cases u with
    | nil => revert hm; decide
    | cons x u =>
      simp only [List.cons_append, List.cons.injEq] at huv
      obtain ⟨rfl, hnil⟩ := huv
      have hu : u = [] := (List.append_eq_nil.mp hnil.symm).1
      subst hu
      revert hm; decide
  · intro h
    have hl : ∃ u v, ([0x62, 0x61] : GoString) = u ++ v ∧
        (MatchList.mk [0x61] true).Match u = true ∧ (MatchAny.mk [0x61]).Match v = true :=
      ⟨[0x62, 0x61], [], rfl, by decide, by decide⟩
    have := h.mp hl
    revert this; decide
  · intro h
    obtain ⟨u, v, huv, hm, _⟩ := h.mpr (by decide)
    cases u with
    | nil => revert hm; decide
    | cons x u =>
      simp only [List.cons_append, List.cons.injEq] at huv
      obtain ⟨rfl, hnil⟩ := huv
      have hu : u = [] := (List.append_eq_nil.mp hnil.symm).1
      subst hu
      revert hm; decide

/-- Why the amended claim C11 asks for a well-formed set: the list `"\xff"` counts as one
rune for `range`, that rune being U+FFFD, and with it the valid text "a" followed by U+FFFD
has no split into one accepted rune and a rest without U+FFFD, yet the fused matcher
accepts it, because the byte `0xFF` is not in the text. -/
theorem list_any_fusion_ill_formed_set :
    runeCount [0xFF] = 1 ∧ ValidString [0x61, 0xEF, 0xBF, 0xBD] ∧
    ¬ ((∃ u v, ([0x61, 0xEF, 0xBF, 0xBD] : GoString) = u ++ v ∧ runeCount u = 1 ∧
          (MatchList.mk [0xFF] true).Match u = true ∧ (MatchAny.mk [0xFF]).Match v = true) ↔
        (MatchEveryOf.mk [(MatchMin.mk 1).Match,
          (MatchContains.mk [0xFF] true).Match]).Match [0x61, 0xEF, 0xBF, 0xBD] = true) := by
  refine ⟨by decide, by decide, ?_⟩
  intro h
  obtain ⟨u, v, huv, hcount, _, ha⟩ := h.mpr (by decide)
  rcases runeCount_eq_one u hcount with ⟨b, rfl⟩ | ⟨r, hr, rfl⟩
  · simp only [List.singleton_append, List.cons.injEq] at huv
    obtain ⟨_, rfl⟩ := huv
    revert ha; decide
  · have hrunes : runes [0x61, 0xEF, 0xBF, 0xBD] = r :: runes v := by
      rw [huv]; exact runes_encodeRune_append r hr v
    have hd : runes [0x61, 0xEF, 0xBF, 0xBD] = [0x61, 0xFFFD] := by decide
    rw [hd, List.cons.injEq] at hrunes
    rw [any_match_iff] at ha
    have hv : (0xFFFD : Nat) ∈ runes v := by rw [← hrunes.2]; exact List.mem_singleton_self _
    exact ha 0xFFFD hv (by decide)

/-- Claim C11, amended. For every character set `S` that is the encoding `string(c)` of
exactly one rune `c`, a Unicode scalar value, and every valid UTF-8 text `t`: `t` can be
split as `u ++ v` with `u` exactly one rune, `List{S, Not: true}.Match(u)` true and `v`
containing no rune of `S` (the semantics of `Any{S}`) if and only if `t` has at least one
rune and does not contain `S` as a substring (the fused
`EveryOf{Min{1}, Contains{S, true}}`). -/
theorem list_any_fusion (c : Nat) (hc : ValidRune c) (t : GoString) (ht : ValidString t) :
    (∃ u v, t = u ++ v ∧ runeCount u = 1 ∧
        (MatchList.mk (encodeRune c) true).Match u = true ∧
        (MatchAny.mk (encodeRune c)).Match v = true) ↔
      (MatchEveryOf.mk [(MatchMin.mk 1).Match,
        (MatchContains.mk (encodeRune c) true).Match]).Match t = true := by
  rw [every_min_contains_iff]
  constructor
  · rintro ⟨u, v, rfl, hcount, hm, ha⟩
    rw [list_not_match_iff] at hm
    rw [any_match_iff, runes_encodeRune c hc] at ha
    have hcv : c ∉ runes v := fun hmem => ha c hmem (List.mem_singleton_self c)
    have hnv : ¬ encodeRune c <:+: v := fun hin =>
      hcv (mem_runes_of_occurs c hc v.length v 0 rfl hin)
    rcases runeCount_eq_one u hcount with ⟨b, rfl⟩ | ⟨r, hr, rfl⟩
    · refine ⟨runeCount_pos b v, ?_⟩
      intro hin
      rw [List.singleton_append, List.infix_cons_iff] at hin
      rcases hin with hp | hin
      · obtain ⟨x0, xs, hx, _, _⟩ := encodeRune_shape c
        rw [hx] at hp hm
        obtain ⟨z, hz⟩ := hp
        simp only [List.cons_append, List.cons.injEq] at hz
        apply hm
        rw [hz.1]
        exact ⟨[], xs, rfl⟩
      · exact hnv hin
    · obtain ⟨b, rest, hbr, _, _⟩ := encodeRune_shape r
      refine ⟨by rw [hbr]; exact runeCount_pos b (rest ++ v), ?_⟩
      intro hin
      have hmem := mem_runes_of_occurs c hc _ _ 0 rfl hin
      change c ∈ runes (encodeRune r ++ v) at hmem
      rw [runes_encodeRune_append r hr, List.mem_cons] at hmem
      rcases hmem with rfl | hmem
      · exact hm List.infix_rfl
      · exact hcv hmem
  · rintro ⟨hpos, hnin⟩
    cases t with
    | nil => exact absurd hpos (by decide)
    | cons b t =>
      obtain ⟨r, w, q, _, _, hq, h, hv⟩ := rangeFrom_step 0 b t
      have hfirst : (⟨0, r, w⟩ : RuneStep) ∈ rangeString (b :: t) := by
        unfold rangeString; rw [h]; exact List.mem_cons_self _ _
      obtain ⟨htake, _, hr⟩ := hv (ht _ hfirst)
      have hsplit : b :: t = encodeRune r ++ q := by
        rw [← htake, ← hq, List.take_append_drop]
      have hvq : ValidString q := by
        apply validString_shift (0 + w) q
        intro st hst
        apply ht st
        unfold rangeString; rw [h]; exact List.mem_cons_of_mem _ hst
      refine ⟨encodeRune r, q, hsplit, ?_, ?_, ?_⟩
      · unfold runeCount
        rw [rangeString_encodeRune r hr]
        rfl
      · rw [list_not_match_iff]
        intro hin
        have hmem := mem_runes_of_occurs r hr _ _ 0 rfl hin
        change r ∈ runes (encodeRune c) at hmem
        rw [runes_encodeRune c hc, List.mem_singleton] at hmem
        apply hnin
        rw [hsplit, hmem]
        exact (List.prefix_append _ _).isInfix
      · rw [any_match_iff, runes_encodeRune c hc]
        intro x hx hxc
        rw [List.mem_singleton] at hxc
        subst hxc
        apply hnin
        rw [hsplit]
        exact (occurs_of_mem_runes x q.length q 0 rfl hx (Or.inr hvq)).trans
          (List.suffix_append _ _).isInfix

theorem list_any_fusion_witness :
    ValidRune 0x61 ∧ ValidString [0x62, 0xC3, 0xA9] ∧
    ((∃ u v, ([0x62, 0xC3, 0xA9] : GoString) = u ++ v ∧ runeCount u = 1 ∧
        (MatchList.mk (encodeRune 0x61) true).Match u = true ∧
        (MatchAny.mk (encodeRune 0x61)).Match v = true) ↔
      (MatchEveryOf.mk [(MatchMin.mk 1).Match,
        (MatchContains.mk (encodeRune 0x61) true).Match]).Match [0x62, 0xC3, 0xA9] = true) :=
  ⟨by decide, by decide, list_any_fusion 0x61 (by decide) [0x62, 0xC3, 0xA9] (by decide)⟩
